import Mathlib

/-!
Verification development for the mkr_glsl_builder repository.

The repository consists of two near-duplicate header-only C++ engines,
`mkr::glsl_include` (src/glsl_include.h) and `mkr::glsl_builder`
(src/glsl_builder.h), that resolve textual `#include <name>` directives
across a set of named source fragments using std::regex scanning, Kahn
topological ordering, and ordered regex substitution with
`#pragma once` include-once semantics.

Strings are modelled as `List Char`.  The std::regex patterns used by the
source are all of three concrete shapes with no backtracking ambiguity
(every greedy character class is disjoint from its follower), so they are
embedded as deterministic maximal-munch matchers:

  directive : R"(^[\s]*#include[\s]+<[a-zA-z0-9_.]+>[\s\r\n]*)"   (multiline)
  pragma    : R"(^[\s]*#pragma[\s]+once[\s\r\n]*)"                 (multiline
              in glsl_include::is_single_include and in both variants'
              pragma-erasing replace; NOT multiline in
              glsl_builder::has_pragma_once)
  per-name  : R"(^[\s]*#include[\s]+<)" + name + R"(>)"  (+ optional
              R"([\s\r\n]*)" tail in the deleting variant)    (multiline)

Notes kept faithful to the source:
  - the character class is `[a-zA-z0-9_.]` with the literal `A-z` range,
    which also covers the ASCII characters [ \ ] ^ _ and the backquote;
  - `^` in multiline mode matches at the searched range's begin and after
    a line terminator; std::regex_replace passes match_prev_avail on the
    second and later searches, while the hand-written search loop in
    extract_includes restarts plain regex_search on the match suffix, so
    there the range begin counts as a line begin again;
  - the replacement string handed to std::regex_replace is a format
    string: $$, $&, $-backquote and $-quote sequences are escapes;
  - ECMAScript \s is modelled by the six ASCII whitespace characters and
    line terminators by LF and CR (non-ASCII whitespace and the U+2028/29
    terminators are outside the model, all fragment data in scope is
    ASCII).
-/

namespace mkr

/-- ECMAScript `\s` restricted to ASCII: space, TAB, LF, VT, FF, CR. -/
def isWsp (c : Char) : Bool :=
  c = ' ' || c = '\t' || c = '\n' || c = Char.ofNat 11 || c = Char.ofNat 12 || c = '\r'

/-- ECMAScript line terminators (ASCII part): LF and CR. -/
def isLineTerm (c : Char) : Bool :=
  c = '\n' || c = '\r'

/-- The character class `[a-zA-z0-9_.]` exactly as written in the source:
note the `A-z` range, which spans ASCII 65..122 and therefore also admits
`[`, `\`, `]`, `^`, `_` and the backquote. -/
def isNameChar (c : Char) : Bool :=
  ('a' ≤ c && c ≤ 'z') || ('A' ≤ c && c ≤ 'z') || ('0' ≤ c && c ≤ '9')
    || c = '_' || c = '.'

/-- Greedy `[\s]*`: split off the maximal whitespace run. -/
def munchWs (s : List Char) : List Char × List Char :=
  (s.takeWhile isWsp, s.dropWhile isWsp)

/-- Match a literal character sequence, returning the rest on success. -/
def matchLit : List Char → List Char → Option (List Char)
  | [], s => some s
  | _ :: _, [] => none
  | l :: ls, c :: cs => if c = l then matchLit ls cs else none

/-- Greedy `[\s]+`: at least one whitespace character, maximal run. -/
def munchWs1 (s : List Char) : Option (List Char × List Char) :=
  match s with
  | [] => none
  | c :: cs => if isWsp c then some ((c :: cs).takeWhile isWsp, (c :: cs).dropWhile isWsp) else none

/-- Greedy `[a-zA-z0-9_.]+`: at least one name character, maximal run. -/
def munchName1 (s : List Char) : Option (List Char × List Char) :=
  match s with
  | [] => none
  | c :: cs => if isNameChar c then some ((c :: cs).takeWhile isNameChar, (c :: cs).dropWhile isNameChar) else none

/-- Attempt the directive pattern
`[\s]*#include[\s]+<[a-zA-z0-9_.]+>[\s\r\n]*` at the current position
(the `^` anchor is handled by the caller).  On success returns
(matched text, extracted name, rest).  The name extraction mirrors
`extract_name`, which strips the `<` `>` delimiters from the match. -/
def matchDirective (s : List Char) : Option (List Char × List Char × List Char) := do
  let (w1, r1) := munchWs s
  let r2 ← matchLit "#include".data r1
  let (w2, r3) ← munchWs1 r2
  let r4 ← matchLit "<".data r3
  let (nm, r5) ← munchName1 r4
  let r6 ← matchLit ">".data r5
  let (w3, r7) := munchWs r6
  some (w1 ++ "#include".data ++ w2 ++ "<".data ++ nm ++ ">".data ++ w3, nm, r7)

/-- Attempt the pragma pattern `[\s]*#pragma[\s]+once[\s\r\n]*` at the
current position.  Returns (matched text, rest). -/
def matchPragma (s : List Char) : Option (List Char × List Char) := do
  let (w1, r1) := munchWs s
  let r2 ← matchLit "#pragma".data r1
  let (w2, r3) ← munchWs1 r2
  let r4 ← matchLit "once".data r3
  let (w3, r5) := munchWs r4
  some (w1 ++ "#pragma".data ++ w2 ++ "once".data ++ w3, r5)

/-- Match the interpolated fragment name inside the per-name replace and
delete regexes.  The name is pasted into the pattern verbatim; this
matcher models `.` as the ECMAScript dot metacharacter (any character
except a line terminator) and every other character as a regex literal.
That is faithful exactly for names built from literal pattern characters
(ASCII letters, digits, `_`, and `.` as the dot).  The scanner's buggy
`[a-zA-z0-9_.]` class can also produce names containing `^`, `\`, `[`,
`]` or the backquote; for those the real interpolation is NOT literal
(`^` is a mid-pattern anchor that can never match after a consumed
literal, `\` escapes its follower, an unterminated `[` makes the regex
constructor throw std::regex_error), so such names are outside this
matcher's faithful domain.  The one theorem whose conclusion depends on
per-name match success (the C5 substitution theorem) therefore restricts
its name to `literalName` below; all other theorems' conclusions are
independent of whether a per-name match succeeds.
Returns (matched text, rest). -/
def matchNamePat : List Char → List Char → Option (List Char × List Char)
  | [], s => some ([], s)
  | _ :: _, [] => none
  | p :: ps, c :: cs =>
    if (if p = '.' then !(isLineTerm c) else c = p) then
      (matchNamePat ps cs).map (fun pr => (c :: pr.1, pr.2))
    else none

/-- Attempt the per-name pattern `[\s]*#include[\s]+<name>` at the current
position (the replacing regex, no trailing whitespace eater).  Returns
(matched text, rest). -/
def matchIncl (name : List Char) (s : List Char) : Option (List Char × List Char) := do
  let (w1, r1) := munchWs s
  let r2 ← matchLit "#include".data r1
  let (w2, r3) ← munchWs1 r2
  let r4 ← matchLit "<".data r3
  let (nm, r5) ← matchNamePat name r4
  let r6 ← matchLit ">".data r5
  some (w1 ++ "#include".data ++ w2 ++ "<".data ++ nm ++ ">".data, r6)

/-- Attempt the per-name pattern `[\s]*#include[\s]+<name>[\s\r\n]*` at the
current position (the deleting regex, with the trailing whitespace
eater).  Returns (matched text, rest). -/
def matchInclDel (name : List Char) (s : List Char) : Option (List Char × List Char) := do
  let (m, r) ← matchIncl name s
  let (w3, r2) := munchWs r
  some (m ++ w3, r2)

/-- Leftmost multiline search.  `att` attempts the (anchor-stripped)
pattern at a position; `bol` says whether the current position counts as
a line begin (range begin, or the previous character is a line
terminator).  Returns (text before the match, match payload, rest). -/
def searchFirst {α : Type} (att : List Char → Option (α × List Char)) :
    Bool → List Char → Option (List Char × α × List Char)
  | bol, s =>
    match (if bol then att s else none) with
    | some (a, rest) => some ([], a, rest)
    | none =>
      match s with
      | [] => none
      | c :: cs =>
        (searchFirst att (isLineTerm c) cs).map (fun pr => (c :: pr.1, pr.2.1, pr.2.2))

/-- Insert into the set model (a duplicate-free list, kept in first-insertion
order) the way `std::unordered_set::insert` stores each value once. -/
def setInsert (x : List Char) (l : List (List Char)) : List (List Char) :=
  if x ∈ l then l else l ++ [x]

/-- The scanner loop of `glsl_include::extract_includes` /
`glsl_builder::find_includes`: repeatedly regex_search the directive
pattern on the remaining suffix, collecting the extracted names into a
set.  The C++ loop restarts a plain `regex_search` on `match.suffix()`,
without match_prev_avail, so at every restart the range begin counts as
a line begin again.  The fuel is the input length plus one; every match
consumes at least one character, so the fuel never runs out. -/
def extractGo : Nat → List Char → List (List Char) → List (List Char)
  | 0, _, acc => acc
  | fuel + 1, s, acc =>
    match searchFirst (fun t => (matchDirective t).map (fun pr => ((pr.1, pr.2.1), pr.2.2))) true s with
    | none => acc
    | some (_, (_, nm), rest) => extractGo fuel rest (setInsert nm acc)

/-- `glsl_include::extract_includes` (and the textually identical
`glsl_builder::find_includes`): the set of names referenced by include
directives in a fragment's text, in first-match order. -/
def extract_includes (src : List Char) : List (List Char) :=
  extractGo (src.length + 1) src []

/-- The std::regex_replace format-string interpreter for the replacement
text (ECMAScript format): `$$` emits `$`, `$&` the whole match,
`$`-backquote the text before the match, `$`-quote the text after it.
The patterns in scope have no capture groups; any other `$` sequence is
kept literally. -/
def applyFmt (pre mt post : List Char) : List Char → List Char
  | [] => []
  | '$' :: '$' :: t => '$' :: applyFmt pre mt post t
  | '$' :: '&' :: t => mt ++ applyFmt pre mt post t
  | '$' :: c :: t =>
    if c = Char.ofNat 96 then pre ++ applyFmt pre mt post t
    else if c = Char.ofNat 39 then post ++ applyFmt pre mt post t
    else '$' :: c :: applyFmt pre mt post t
  | c :: t => c :: applyFmt pre mt post t

/-- `std::regex_replace(content, spec, fmt, format_first_only)`:
replace the leftmost match with the formatted replacement.  The first
search treats the range begin as a line begin. -/
def replaceFirstFmt (att : List Char → Option (List Char × List Char))
    (fmt : List Char) (s : List Char) : List Char :=
  match searchFirst att true s with
  | none => s
  | some (pre, mt, rest) => pre ++ applyFmt pre mt rest fmt ++ rest

/-- Whether the position after `pre ++ mt` counts as a line begin for a
match_prev_avail search (the previous character is a line terminator);
`bol` is returned when there is no previous character. -/
def bolAfter (bol : Bool) (pre mt : List Char) : Bool :=
  match (pre ++ mt).getLast? with
  | some c => isLineTerm c
  | none => bol

/-- Loop of `std::regex_replace(content, spec, "")` deleting every match:
regex_replace uses regex_iterator semantics, so the second and later
searches carry match_prev_avail, under which `^` only matches after an
actual line terminator.  Every match is nonempty, so the input length
bounds the number of matches and the fuel never runs out. -/
def replaceAllGo (att : List Char → Option (List Char × List Char)) :
    Nat → Bool → List Char → List Char
  | 0, _, s => s
  | fuel + 1, bol, s =>
    match searchFirst att bol s with
    | none => s
    | some (pre, mt, rest) => pre ++ replaceAllGo att fuel (bolAfter bol pre mt) rest

/-- `std::regex_replace(content, spec, "")`: delete every match. -/
def replaceAllEmpty (att : List Char → Option (List Char × List Char))
    (s : List Char) : List Char :=
  replaceAllGo att (s.length + 1) true s

/-- `glsl_include::erase_header_guard` / `glsl_builder::remove_pragma_once`:
strip every line-anchored `#pragma once` (multiline regex, empty
replacement). -/
def erase_header_guard (content : List Char) : List Char :=
  replaceAllEmpty matchPragma content

/-- `glsl_builder::has_pragma_once`: the same pragma regex but WITHOUT
std::regex::multiline, so `^` only matches at the very begin of the
content (the leading `[\s]*` may still consume newlines there). -/
def has_pragma_once (content : List Char) : Bool :=
  (matchPragma content).isSome

/-- Pragma detection with multiline `^`, as a single fragment predicate:
this is what `glsl_include::is_single_include` computes per fragment. -/
def has_pragma_once_ml (content : List Char) : Bool :=
  (searchFirst (fun t => matchPragma t) true content).isSome

/-! ## Association lists

`std::unordered_map` is modelled as a duplicate-key-free list of pairs in
first-insertion order (the C++ iteration order is unspecified; this model
fixes insertion order as the iteration order). -/

/-- Key membership for the map model. -/
def keyMem (k : List Char) (l : List (List Char × α)) : Bool :=
  l.any (fun p => p.1 = k)

/-- Lookup in the map model. -/
def lookupA (k : List Char) : List (List Char × α) → Option α
  | [] => none
  | p :: ps => if p.1 = k then some p.2 else lookupA k ps

/-- Lookup with a default, used to read through `operator[]` where the
entry is known to exist or where the map is local and the value default
matches C++ value initialization. -/
def lookupD (k : List Char) (d : α) (l : List (List Char × α)) : α :=
  (lookupA k l).getD d

/-- `std::unordered_map::insert` ({k, v}): inserts only when the key is
absent; an existing mapping is NOT replaced. -/
def insertNew (k : List Char) (v : α) (l : List (List Char × α)) :
    List (List Char × α) :=
  if keyMem k l then l else l ++ [(k, v)]

/-- `map[k] = v` assignment through `operator[]`: update in place or
append a fresh entry. -/
def setKey (k : List Char) (v : α) : List (List Char × α) → List (List Char × α)
  | [] => [(k, v)]
  | p :: ps => if p.1 = k then (k, v) :: ps else p :: setKey k v ps

/-- Reading `map[k]` through the mutating `operator[]`: returns the value
and the map, default-inserting when the key is absent. -/
def getOrInsert (k : List Char) (d : α) (l : List (List Char × α)) :
    α × List (List Char × α) :=
  match lookupA k l with
  | some v => (v, l)
  | none => (d, l ++ [(k, d)])

/-- `std::unordered_map::erase` by key (used by `glsl_include::remove`). -/
def eraseKey (k : List Char) : List (List Char × α) → List (List Char × α)
  | [] => []
  | p :: ps => if p.1 = k then ps else p :: eraseKey k ps

/-! ## Errors

The engines signal errors by throwing std::runtime_error with one of
three fixed messages; the taxonomy is modelled as constructors, with the
missing-source message carrying the offending name.  The two variants
differ only in the `glsl_include - ` / `glsl_builder - ` message prefix,
which is outside the model. -/

/-- Error taxonomy of the merge pipeline. -/
inductive Err : Type
  /-- message: Cannot include missing source NAME. -/
  | missingDependency (name : List Char) : Err
  /-- message: There must be exactly 1 file which is not included by any other file. -/
  | ambiguousRoot : Err
  /-- message: Cyclic dependency detected. -/
  | cyclicDependency : Err
deriving DecidableEq, Repr

/-! ## Graph construction

`glsl_include::get_out_edges` and the loop body of
`glsl_builder::find_edges` are textually identical up to the member /
local distinction and the error-message prefix, so they share one
embedding; the same holds for the in-edge, degree and toposort code. -/

/-- Validation fold of `get_out_edges` / `find_edges`: for one fragment,
check each referenced name against the registered keys, in the set's
iteration order, throwing on the first missing one. -/
def checkEdges (srcs : List (List Char × List Char)) :
    List (List Char) → Except Err Unit
  | [] => Except.ok ()
  | tgt :: ts =>
    if keyMem tgt srcs then checkEdges srcs ts
    else Except.error (Err.missingDependency tgt)

/-- `glsl_include::get_out_edges` / `glsl_builder::find_edges` (out-edge
part): per fragment, the scanned include set, validated against the
registered names; the first missing reference (in map, then set,
iteration order) aborts the merge. -/
def get_out_edges_go (srcs : List (List Char × List Char)) :
    List (List Char × List Char) →
    Except Err (List (List Char × List (List Char)))
  | [] => Except.ok []
  | (name, content) :: rest =>
    match checkEdges srcs (extract_includes content) with
    | Except.error e => Except.error e
    | Except.ok _ =>
      match get_out_edges_go srcs rest with
      | Except.error e => Except.error e
      | Except.ok tail => Except.ok ((name, extract_includes content) :: tail)

/-- Out-edge map of the whole fragment registry. -/
def get_out_edges (srcs : List (List Char × List Char)) :
    Except Err (List (List Char × List (List Char))) :=
  get_out_edges_go srcs srcs

/-- `glsl_include::get_in_edges` / the in-edge loop of
`glsl_builder::find_edges`: invert the out-edge map;
`in_edges[to].insert(from)`. -/
def get_in_edges (outE : List (List Char × List (List Char))) :
    List (List Char × List (List Char)) :=
  outE.foldl
    (fun acc p =>
      p.2.foldl
        (fun acc2 tgt =>
          setKey tgt (setInsert p.1 (lookupD tgt [] acc2)) acc2)
        acc)
    []

/-- `glsl_include::get_degrees` / `glsl_builder::find_degrees`: per
registered fragment, the size of its edge set (0 when absent).  Degrees
are `Int` so that the `--in_degrees[to]` decrement of the C++ `size_t`
is strictly decreasing in the model; the `new value = 0` test agrees
with the wrapping C++ one for every execution whose total decrement count
stays below 2^64, which the fuel bound guarantees. -/
def get_degrees (srcs : List (List Char × List Char))
    (edges : List (List Char × List (List Char))) :
    List (List Char × Int) :=
  srcs.map (fun p => (p.1, ((lookupD p.1 [] edges).length : Int)))

/-- Decrement `degs[to]` through `operator[]` (default-inserting 0 when
absent, as `size_t` value initialization would). -/
def decKey (k : List Char) (degs : List (List Char × Int)) :
    List (List Char × Int) :=
  setKey k (lookupD k 0 degs - 1) degs

/-- One expansion step of the Kahn loop: pop `from`, append it to the
sorted list, decrement each of its out-neighbours in the edge set's
iteration order, enqueueing those that reach zero. -/
def kahnStep (outE : List (List Char × List (List Char)))
    (from_ : List Char) (degs : List (List Char × Int))
    (queue : List (List Char)) :
    List (List Char × Int) × List (List Char) :=
  (lookupD from_ [] outE).foldl
    (fun st tgt =>
      if lookupD tgt 0 (decKey tgt st.1) = 0 then (decKey tgt st.1, st.2 ++ [tgt])
      else (decKey tgt st.1, st.2))
    (degs, queue)

/-- The Kahn while-loop with fuel; returns the final degree map and the
processed names in push order.  The fuel (number of registered fragments
plus one) provably suffices: a name enters the queue at most once,
because its degree is strictly decreasing and a push needs it to equal
zero. -/
def kahnGo (outE : List (List Char × List (List Char))) :
    Nat → List (List Char) → List (List Char × Int) → List (List Char) →
    List (List Char × Int) × List (List Char)
  | 0, _, degs, sorted => (degs, sorted)
  | _ + 1, [], degs, sorted => (degs, sorted)
  | fuel + 1, from_ :: queue, degs, sorted =>
    let st := kahnStep outE from_ degs queue
    kahnGo outE fuel st.2 st.1 (sorted ++ [from_])

/-- `glsl_include::toposort` / `glsl_builder::toposort`: initial frontier
= zero-in-degree fragments in map iteration order; fails with the
single-root error unless the frontier is exactly one; runs the Kahn
loop; fails with the cyclic-dependency error when any in-degree remains
nonzero.  Returns the processed names in push order (the C++ stack pops
them in reverse, which `merge`/`build` below account for). -/
def toposort (outE : List (List Char × List (List Char)))
    (inDegs : List (List Char × Int)) : Except Err (List (List Char)) :=
  let frontier := (inDegs.filter (fun p => p.2 = 0)).map (fun p => p.1)
  if frontier.length ≠ 1 then Except.error Err.ambiguousRoot
  else
    let res := kahnGo outE (inDegs.length + 1) frontier inDegs []
    if res.1.any (fun p => p.2 ≠ 0) then Except.error Err.cyclicDependency
    else Except.ok res.2

/-! ## Substitution engine

The replace-includes loop is textually identical in
`glsl_include::merge` and `glsl_builder::build`; it is embedded once.
The working state carries the fragment registry because the loop reads
`srcs_[name]` through the mutating `operator[]`.  The `events` field is
ghost instrumentation: it records, in order, every (fragment, included
name) pair for which the replacing regex_replace call was actually
executed (the non-skip branch of the include-once test); it feeds no
other field, so the observable output is unchanged by it. -/

/-- Working state of the substitution loop. -/
structure SubstState : Type where
  srcs : List (List Char × List Char)
  visited : List (List Char × Bool)
  modified : List (List Char × List Char)
  content : List Char
  events : List (List Char × List Char)
deriving Repr

/-- Body of the first per-fragment loop (replace includes): for one
included name, either skip (include-once and already visited) or mark
visited, then replace the first match of the per-name regex with the
dependency's modified content used as the replacement format string. -/
def replStep (single : List (List Char × Bool)) (name : List Char)
    (st : SubstState) (incl : List Char) : SubstState :=
  if lookupD incl false single && lookupD incl false st.visited then st
  else
    { st with
      visited := setKey incl true st.visited
      content := replaceFirstFmt (matchIncl incl) (lookupD incl [] st.modified) st.content
      events := st.events ++ [(name, incl)] }

/-- Body of the second per-fragment loop (delete the rest of the
includes): delete every remaining match of the per-name regex with the
trailing whitespace eater. -/
def delStep (st : SubstState) (incl : List Char) : SubstState :=
  { st with content := replaceAllEmpty (matchInclDel incl) st.content }

/-- Process one fragment of the sorted order: load its registered text
through `srcs_[name]`, run the replace loop then the delete loop over
its include set, and store the result in `modified[name]`. -/
def substFrag (single : List (List Char × Bool))
    (outE : List (List Char × List (List Char)))
    (st : SubstState) (name : List Char) : SubstState :=
  let pr := getOrInsert name [] st.srcs
  let included := lookupD name [] outE
  let st1 := included.foldl (replStep single name)
    { st with srcs := pr.2, content := pr.1 }
  let st2 := included.foldl delStep st1
  { st2 with modified := setKey name st2.content st2.modified }

/-- The whole substitution walk: the C++ code pushes the Kahn order onto
a stack and pops it, so the fragments are processed in reverse push
order (dependencies first, root last). -/
def substitute (single : List (List Char × Bool))
    (outE : List (List Char × List (List Char)))
    (sorted : List (List Char))
    (srcs : List (List Char × List Char)) : SubstState :=
  sorted.reverse.foldl (substFrag single outE)
    { srcs := srcs, visited := [], modified := [], content := [], events := [] }

/-! ## The glsl_include engine -/

namespace glsl_include

/-- `glsl_include::is_single_include`: per registered fragment, whether
its content has a line-anchored `#pragma once` (multiline search). -/
def is_single_include (srcs : List (List Char × List Char)) :
    List (List Char × Bool) :=
  srcs.map (fun p => (p.1, has_pragma_once_ml p.2))

/-- `glsl_include::add`: `srcs_.insert({name, content})` — the fragment
is registered only when the name is not yet present; an existing
registration is NOT replaced. -/
def add (name content : List Char) (srcs : List (List Char × List Char)) :
    List (List Char × List Char) :=
  insertNew name content srcs

/-- `glsl_include::remove`: deregister a fragment when present. -/
def remove (name : List Char) (srcs : List (List Char × List Char)) :
    List (List Char × List Char) :=
  eraseKey name srcs

/-- `glsl_include::merge` with the registry threaded through (the only
member the method can mutate, via `srcs_[name]`); returns the final
registry and the merged text or the first error.  The out-degree map is
computed and never read, as in the source. -/
def merge (srcs : List (List Char × List Char)) :
    List (List Char × List Char) × Except Err (List Char) :=
  let single := is_single_include srcs
  match get_out_edges srcs with
  | Except.error e => (srcs, Except.error e)
  | Except.ok outE =>
    let inE := get_in_edges outE
    let _outDegs := get_degrees srcs outE
    let inDegs := get_degrees srcs inE
    match toposort outE inDegs with
    | Except.error e => (srcs, Except.error e)
    | Except.ok sorted =>
      let st := substitute single outE sorted srcs
      (st.srcs, Except.ok (erase_header_guard st.content))

end glsl_include

/-! ## The glsl_builder engine

`glsl_builder` keeps every intermediate of the pipeline in member state.
Its pipeline code is textually identical to `glsl_include`'s except for
`has_pragma_once`, whose pragma regex lacks std::regex::multiline.  On a
thrown error the C++ object can retain partially rebuilt internal maps;
the model returns the members at completed-phase granularity, which is
indistinguishable through the public interface (`add`, `get`, `build`),
as `build` clears and recomputes every internal member before use and
`get` reads only `srcs_`. -/

/-- Member state of a `glsl_builder` object. -/
structure Builder : Type where
  srcs_ : List (List Char × List Char) := []
  in_edges_ : List (List Char × List (List Char)) := []
  out_edges_ : List (List Char × List (List Char)) := []
  in_degrees_ : List (List Char × Int) := []
  out_degrees_ : List (List Char × Int) := []
  sorted_ : List (List Char) := []
  pragma_once_ : List (List Char × Bool) := []
deriving Repr

namespace glsl_builder

/-- `glsl_builder::add`: same no-replace `insert` as `glsl_include`. -/
def add (name content : List Char) (b : Builder) : Builder :=
  { b with srcs_ := insertNew name content b.srcs_ }

/-- `glsl_builder::get`: the registered content, or empty when absent. -/
def get (name : List Char) (b : Builder) : List Char :=
  lookupD name [] b.srcs_

/-- `glsl_builder::find_pragma_once`: per fragment, the NON-multiline
pragma search (`^` anchors only at the begin of the content). -/
def find_pragma_once (b : Builder) : Builder :=
  { b with pragma_once_ := b.srcs_.map (fun p => (p.1, has_pragma_once p.2)) }

/-- `glsl_builder::find_edges`: out-edges with missing-source validation,
then in-edges; the loop bodies are textually identical to
`glsl_include::get_out_edges` / `get_in_edges`. -/
def find_edges (b : Builder) : Except Err Builder :=
  match get_out_edges b.srcs_ with
  | Except.error e => Except.error e
  | Except.ok outE =>
    Except.ok { b with out_edges_ := outE, in_edges_ := get_in_edges outE }

/-- `glsl_builder::find_degrees`. -/
def find_degrees (b : Builder) : Builder :=
  { b with
    out_degrees_ := get_degrees b.srcs_ b.out_edges_
    in_degrees_ := get_degrees b.srcs_ b.in_edges_ }

/-- `glsl_builder::toposort` acting on the member state (it consumes
`in_degrees_` by decrementing it; the model stores the final map). -/
def toposortB (b : Builder) : Except Err Builder :=
  match mkr.toposort b.out_edges_ b.in_degrees_ with
  | Except.error e => Except.error e
  | Except.ok sorted => Except.ok { b with sorted_ := sorted }

/-- `glsl_builder::build`: the four phases, then the substitution walk
(textually identical to `glsl_include::merge`'s); the sorted stack is
fully popped by the walk, so it ends empty. -/
def build (b : Builder) : Builder × Except Err (List Char) :=
  match find_edges (find_pragma_once b) with
  | Except.error e => (find_pragma_once b, Except.error e)
  | Except.ok b2 =>
    match toposortB (find_degrees b2) with
    | Except.error e => (find_degrees b2, Except.error e)
    | Except.ok b4 =>
      ({ b4 with
          srcs_ := (substitute b4.pragma_once_ b4.out_edges_ b4.sorted_ b4.srcs_).srcs
          sorted_ := [] },
        Except.ok (erase_header_guard
          (substitute b4.pragma_once_ b4.out_edges_ b4.sorted_ b4.srcs_).content))

end glsl_builder

/-- The value of `(glsl_builder.build b).2` as a function of the registry
alone: every phase of `build` clears and recomputes its member inputs
from `srcs_`, so the returned result depends on no other member (proved
below as `build_snd`). -/
def buildResult (srcs : List (List Char × List Char)) : Except Err (List Char) :=
  match get_out_edges srcs with
  | Except.error e => Except.error e
  | Except.ok outE =>
    match toposort outE (get_degrees srcs (get_in_edges outE)) with
    | Except.error e => Except.error e
    | Except.ok sorted =>
      Except.ok (erase_header_guard
        (substitute (srcs.map (fun p => (p.1, has_pragma_once p.2))) outE sorted srcs).content)

/-- The reference relation of the computed out-edge map: fragment `a`
includes fragment `b`. -/
def hasEdge (outE : List (List Char × List (List Char))) (a b : List Char) : Prop :=
  b ∈ lookupD a [] outE

/-- Number of (possibly overlapping) occurrences of `pat` as a contiguous
substring of `s`: the number of positions at which `pat` is a prefix of
the remaining suffix. -/
def countOccur (pat s : List Char) : Nat :=
  (List.range (s.length + 1)).countP (fun i => pat.isPrefixOf (s.drop i))

end mkr

open mkr

/-! ## Concrete fragment sets used as counterexamples and witnesses -/

/-- A two-fragment include cycle with no zero-in-degree fragment. -/
def cexCycle : List (List Char × List Char) :=
  [("A".data, "#include <B>\n".data), ("B".data, "#include <A>\n".data)]

/-- An include-once fragment F whose (marker-stripped) content `X`
coincidentally also occurs literally in the root fragment; F is
referenced by the two fragments A and B. -/
def cexOnce : List (List Char × List Char) :=
  [("root".data, "X\n#include <A>\n#include <B>\n".data),
   ("A".data, "#include <F>\n".data),
   ("B".data, "#include <F>\n".data),
   ("F".data, "#pragma once\nX\n".data)]

/-- A fragment whose merged text `$&` is a regex replacement-format
escape, referenced twice by the root. -/
def cexDollar : List (List Char × List Char) :=
  [("root".data, "#include <F>\n#include <F>\n".data),
   ("F".data, "$&\n".data)]

/-- A fragment F declaring `#pragma once` on a line that is not at the
begin of its content, referenced through two branches: the two engine
variants disagree on its include-once flag. -/
def cexInnerPragma : List (List Char × List Char) :=
  [("root".data, "R\n#include <A>\n#include <B>\n".data),
   ("A".data, "a\n#include <F>\n".data),
   ("B".data, "b\n#include <F>\n".data),
   ("F".data, "code\n#pragma once\nFF\n".data)]

/-- Two fragments referencing two different unregistered names: the
reported missing name depends on the registry iteration order. -/
def cexOrderA : List (List Char × List Char) :=
  [("A".data, "#include <x>\nq\n".data), ("B".data, "#include <y>\nq\n".data)]

/-- The same fragment set as `cexOrderA`, registered in the other order. -/
def cexOrderB : List (List Char × List Char) :=
  [("B".data, "#include <y>\nq\n".data), ("A".data, "#include <x>\nq\n".data)]

/-- Join a list of lines, each terminated by LF, into one text. -/
def joinLinesNL (lines : List (List Char)) : List Char :=
  lines.foldr (fun l acc => l ++ '\n' :: acc) []

/-- The canonical directive line for the name g. -/
def dirLine (g : List Char) : List Char :=
  "#include <".data ++ g ++ ">".data

/-- An ordinary code line for the substitution analysis: nonempty, its
first character neither whitespace nor `#` (so no anchored match can
start on it), and free of line terminators. -/
def plainLine : List Char → Bool
  | [] => false
  | c :: cs => !(isWsp c) && !(c = '#') && (c :: cs).all (fun d => !(isLineTerm d))

/-- A name that interpolates into the per-name regex as a pure literal:
free of the dot metacharacter and of line terminators. -/
def goodName (g : List Char) : Bool :=
  g.all (fun c => !(c = '.') && !(isLineTerm c))

/-- A name whose every character the ECMAScript engine treats as a pure
pattern literal when the name is pasted into the per-name regex: ASCII
letters, digits and underscore.  On such names `matchNamePat` is a
faithful model of the source's interpolated pattern; names with `^`,
`\`, `[` (admitted by the scanner's `A-z` class bug) or the `.`
metacharacter are excluded. -/
def literalName (g : List Char) : Bool :=
  g.all (fun c =>
    ('a' ≤ c && c ≤ 'z') || ('A' ≤ c && c ≤ 'Z') || ('0' ≤ c && c ≤ '9') || c = '_')

/-- The separator left behind by the substitution at the replaced
directive's own line terminator: the deleting regex consumes it only when
the next line is again a directive for g. -/
def blankSep (g : List Char) : List (List Char) → List Char
  | [] => ['\n']
  | l :: _ => if l = dirLine g then [] else ['\n']

/-- A fragment set with a unique root whose dependency subgraph contains
a two-cycle. -/
def cexCycleRoot : List (List Char × List Char) :=
  [("R".data, "#include <A>\n".data),
   ("A".data, "#include <B>\n".data),
   ("B".data, "#include <A>\n".data)]

/-- The out-edge map of `cexCycleRoot`. -/
def cexCycleRootOutE : List (List Char × List (List Char)) :=
  [("R".data, ["A".data]), ("A".data, ["B".data]), ("B".data, ["A".data])]

/-! ## C10 -/

/-- C10: merging with no registered fragments fails with the single-root
(AmbiguousRoot) error on both engine variants: the zero-in-degree
frontier is empty, so the frontier-size check fires; no empty string and
no other error is possible. -/
theorem empty_registry_ambiguous_root :
    (glsl_include.merge []).2 = Except.error Err.ambiguousRoot ∧
      (glsl_builder.build {}).2 = Except.error Err.ambiguousRoot := by
  exact ⟨rfl, rfl⟩

/-! ## C6 -/

/-- C6 (code slip, evaluated): the scanner's character class is written
`[a-zA-z0-9_.]`; the `A-z` range also covers `^` (ASCII 94), so the
directive `#include <a^b>` is recognized and the name `a^b` — which
contains a character outside `[A-Za-z0-9_.]` — is extracted, against the
documented `[A-Za-z0-9_.]+` name syntax. -/
theorem scanner_accepts_caret_name :
    extract_includes "#include <a^b>\n".data = ["a^b".data] ∧
      isNameChar (Char.ofNat 94) = true := by
  exact ⟨rfl, rfl⟩

/-! ## C2 -/

/-- C2 counterexample: `add` uses `std::unordered_map::insert`, which
does not replace an existing mapping: after add(n, c1) and add(n, c2)
the engine still returns c1 for n, not c2. -/
theorem add_does_not_replace_cex :
    glsl_builder.get "n".data
        (glsl_builder.add "n".data "c2".data
          (glsl_builder.add "n".data "c1".data {})) = "c1".data ∧
      "c1".data ≠ "c2".data := by
  exact ⟨rfl, by decide⟩

/-- Inserting under a key makes the key present. -/
theorem keyMem_insertNew_self {α : Type} (n : List Char) (v : α)
    (l : List (List Char × α)) : keyMem n (insertNew n v l) = true := by
  unfold insertNew
  by_cases h : keyMem n l = true
  · simp [h]
  · simp only [h, if_neg, Bool.not_eq_true] at *
    simp [keyMem, h, List.any_append]

/-- A second insert under the same key is a no-op. -/
theorem insertNew_insertNew_same {α : Type} (n : List Char) (c1 c2 : α)
    (l : List (List Char × α)) :
    insertNew n c2 (insertNew n c1 l) = insertNew n c1 l := by
  conv_lhs => rw [insertNew]
  simp [keyMem_insertNew_self]

/-- C2 amended: `add` registers a fragment only when the name is not yet
registered; a second add under the same name is a no-op on both engine
variants, and starting from an empty engine, `get(n)` after add(n, c1)
and add(n, c2) returns the first content c1. -/
theorem add_keeps_first_registration (n c1 c2 : List Char) (b : Builder)
    (srcs : List (List Char × List Char)) :
    glsl_builder.add n c2 (glsl_builder.add n c1 b) = glsl_builder.add n c1 b ∧
      glsl_include.add n c2 (glsl_include.add n c1 srcs) = glsl_include.add n c1 srcs ∧
      glsl_builder.get n (glsl_builder.add n c2 (glsl_builder.add n c1 { srcs_ := [] })) = c1 := by
  refine ⟨?_, ?_, ?_⟩
  · simp [glsl_builder.add, insertNew_insertNew_same]
  · simp [glsl_include.add, insertNew_insertNew_same]
  · simp [glsl_builder.add, glsl_builder.get, insertNew_insertNew_same, insertNew,
      keyMem, lookupD, lookupA]

/-! ## C3 -/

/-- C3 counterexample: a fragment set that is one big reference cycle
(A includes B includes A) leaves no fragment with zero incoming
references, so the frontier-size check fires first and both engines fail
with the single-root (AmbiguousRoot) error, not CyclicDependency. -/
theorem full_cycle_reports_ambiguous_root :
    (glsl_include.merge cexCycle).2 = Except.error Err.ambiguousRoot ∧
      (glsl_builder.build { srcs_ := cexCycle }).2 = Except.error Err.ambiguousRoot ∧
      Err.ambiguousRoot ≠ Err.cyclicDependency := by
  exact ⟨rfl, rfl, by decide⟩

/-! ## C5 -/

/-- C5 counterexample: the replacement text is a std::regex_replace
format string.  Fragment F's merged text is `$&`, which re-emits the
matched directive text instead of being inserted literally; the
re-emitted directive then becomes line-anchored and the deleting pass
erases both occurrences, so the merge output is empty instead of
containing F's text once with the duplicate directive deleted. -/
theorem substitution_format_escape_cex :
    (glsl_include.merge cexDollar).2 = Except.ok [] ∧
      countOccur "$&".data [] = 0 := by
  exact ⟨rfl, by decide⟩

/-! ## C4 -/

/-- C4 counterexample: `glsl_builder::has_pragma_once` compiles its
pragma regex without std::regex::multiline while
`glsl_include::is_single_include` compiles it with it, so a
`#pragma once` on a non-initial line makes the builder insert the
fragment at every reference while glsl_include inserts it once: the two
engines return different strings for the same fragment set. -/
theorem variants_differ_on_inner_pragma :
    (glsl_include.merge cexInnerPragma).2 =
        Except.ok "R\na\nb\ncode\nFF\n\n\n".data ∧
      (glsl_builder.build { srcs_ := cexInnerPragma }).2 =
        Except.ok "R\na\ncode\nFF\nb\ncode\nFF\n\n\n".data ∧
      ("R\na\nb\ncode\nFF\n\n\n".data : List Char) ≠
        "R\na\ncode\nFF\nb\ncode\nFF\n\n\n".data := by
  refine ⟨rfl, rfl, by decide⟩

/-! ## C8 -/

/-- C8 counterexample: the same fragment set registered in two different
orders produces two different MissingDependency errors (naming x
resp. y): a merge call is not a function of the registered set alone. -/
theorem merge_depends_on_registration_order :
    (glsl_include.merge cexOrderA).2 = Except.error (Err.missingDependency "x".data) ∧
      (glsl_include.merge cexOrderB).2 = Except.error (Err.missingDependency "y".data) ∧
      cexOrderA.Perm cexOrderB ∧
      Err.missingDependency "x".data ≠ Err.missingDependency "y".data := by
  refine ⟨rfl, rfl, by decide, by decide⟩

/-! ## C1 -/

/-- C1 counterexample: F is include-once and referenced by the two
fragments A and B, the merge succeeds, yet F's content does not appear
exactly once in the output: the content as registered (with the marker)
appears zero times — the marker is stripped — and the marker-stripped
content `X` appears twice, because the root coincidentally also contains
the line `X`. -/
theorem include_once_content_not_exactly_once :
    (glsl_include.merge cexOnce).2 = Except.ok "X\nX\n\n\n".data ∧
      has_pragma_once_ml "#pragma once\nX\n".data = true ∧
      countOccur "#pragma once\nX\n".data "X\nX\n\n\n".data = 0 ∧
      countOccur "X\n".data "X\nX\n\n\n".data = 2 := by
  refine ⟨rfl, rfl, by decide, by decide⟩


/-! ## Association-list lemmas -/

/-- Key membership is lookup success. -/
theorem keyMem_eq_isSome {α : Type} (k : List Char) (l : List (List Char × α)) :
    keyMem k l = (lookupA k l).isSome := by
  induction l with
  | nil => rfl
  | cons p ps ih =>
    rw [keyMem, List.any_cons, lookupA]
    by_cases hk : p.1 = k
    · simp [hk]
    · rw [if_neg hk, decide_eq_false hk, Bool.false_or]
      exact ih

/-- Key membership yields a successful lookup. -/
theorem lookupA_of_keyMem {α : Type} {k : List Char}
    {l : List (List Char × α)} (h : keyMem k l = true) :
    ∃ v, lookupA k l = some v := by
  rw [keyMem_eq_isSome] at h
  exact Option.isSome_iff_exists.mp h

/-- A successful lookup comes from an entry of the list. -/
theorem lookupA_mem {α : Type} {k : List Char} {v : α}
    {l : List (List Char × α)} (h : lookupA k l = some v) : (k, v) ∈ l := by
  induction l with
  | nil => exact absurd h (by rw [lookupA]; simp)
  | cons p ps ih =>
    rw [lookupA] at h
    by_cases hk : p.1 = k
    · rw [if_pos hk] at h
      have hv : p.2 = v := by injection h
      have hp : p = (k, v) := by
        obtain ⟨a, b⟩ := p
        simp only at hk hv
        rw [hk, hv]
      rw [hp]
      exact List.mem_cons_self _ _
    · rw [if_neg hk] at h
      exact List.mem_cons_of_mem _ (ih h)

/-- Membership of an entry makes its key a member of the key set. -/
theorem keyMem_of_mem {α : Type} {k : List Char} {v : α}
    {l : List (List Char × α)} (h : (k, v) ∈ l) : keyMem k l = true := by
  induction l with
  | nil => cases h
  | cons p ps ih =>
    rw [keyMem, List.any_cons, Bool.or_eq_true]
    rcases List.mem_cons.mp h with h1 | h1
    · left
      rw [← h1]
      exact decide_eq_true rfl
    · right
      exact ih h1

/-- Reading through the mutating `operator[]` leaves the map unchanged
when the key is present. -/
theorem getOrInsert_snd_of_keyMem {α : Type} {k : List Char} {d : α}
    {l : List (List Char × α)} (h : keyMem k l = true) :
    (getOrInsert k d l).2 = l := by
  rcases lookupA_of_keyMem h with ⟨v, hv⟩
  simp [getOrInsert, hv]

/-! ## Validation lemmas for the graph builder -/

/-- A successful edge check means every referenced name is registered. -/
theorem checkEdges_ok {srcs : List (List Char × List Char)}
    {es : List (List Char)} (h : checkEdges srcs es = Except.ok ()) :
    ∀ x ∈ es, keyMem x srcs = true := by
  induction es with
  | nil => simp
  | cons t ts ih =>
    intro x hx
    by_cases ht : keyMem t srcs = true
    · rw [checkEdges, if_pos ht] at h
      rcases List.mem_cons.mp hx with h1 | h1
      · rw [h1]; exact ht
      · exact ih h x h1
    · rw [checkEdges, if_neg ht] at h
      exact absurd h (by simp)

/-- A successful out-edge construction records per fragment exactly the
scanned include set and validates every edge target against the
registered names. -/
theorem get_out_edges_go_ok {srcs : List (List Char × List Char)} :
    ∀ {l : List (List Char × List Char)}
      {outE : List (List Char × List (List Char))},
      get_out_edges_go srcs l = Except.ok outE →
      outE = l.map (fun p => (p.1, extract_includes p.2)) ∧
        ∀ pr ∈ outE, ∀ x ∈ pr.2, keyMem x srcs = true := by
  intro l
  induction l with
  | nil =>
    intro outE h
    rw [get_out_edges_go] at h
    injection h with h
    rw [← h]
    simp
  | cons p ps ih =>
    intro outE h
    obtain ⟨name, content⟩ := p
    rw [get_out_edges_go] at h
    cases hc : checkEdges srcs (extract_includes content) with
    | error e => rw [hc] at h; cases h
    | ok u =>
      rw [hc] at h
      cases hg : get_out_edges_go srcs ps with
      | error e => rw [hg] at h; cases h
      | ok tail =>
        rw [hg] at h
        injection h with h
        obtain ⟨h1, h2⟩ := ih hg
        subst h1
        rw [← h]
        refine ⟨rfl, ?_⟩
        intro pr hpr x hx
        rcases List.mem_cons.mp hpr with h3 | h3
        · rw [h3] at hx
          exact checkEdges_ok hc x hx
        · exact h2 pr h3 x hx

/-! ## Kahn-loop membership lemmas -/

/-- Elements of the queue after one expansion step either were queued
already or are edge targets of the expanded fragment. -/
theorem kahnStep_queue_sub {outE : List (List Char × List (List Char))}
    {from_ : List Char} {degs : List (List Char × Int)}
    {queue : List (List Char)} :
    ∀ x ∈ (kahnStep outE from_ degs queue).2,
      x ∈ queue ∨ x ∈ lookupD from_ [] outE := by
  unfold kahnStep
  generalize hl : lookupD from_ [] outE = es
  have main : ∀ (l : List (List Char)) (st : List (List Char × Int) × List (List Char)),
      (∀ x ∈ st.2, x ∈ queue ∨ x ∈ es) → (∀ x ∈ l, x ∈ es) →
      ∀ x ∈ (l.foldl (fun st tgt =>
        if lookupD tgt 0 (decKey tgt st.1) = 0 then (decKey tgt st.1, st.2 ++ [tgt])
        else (decKey tgt st.1, st.2)) st).2,
        x ∈ queue ∨ x ∈ es := by
    intro l
    induction l with
    | nil => intro st h1 _ x hx; exact h1 x hx
    | cons t ts ih =>
      intro st h1 h2 x hx
      rw [List.foldl_cons] at hx
      refine ih _ ?_ (fun y hy => h2 y (List.mem_cons_of_mem _ hy)) x hx
      intro y hy
      by_cases hz : lookupD t 0 (decKey t st.1) = 0
      · simp only [hz, if_pos] at hy
        rcases List.mem_append.mp hy with h3 | h3
        · exact h1 y h3
        · right
          rw [List.mem_singleton.mp h3]
          exact h2 t (List.mem_cons_self _ _)
      · simp only [hz, if_neg, not_false_iff] at hy
        exact h1 y hy
  intro x hx
  exact main es (degs, queue) (fun y hy => Or.inl hy) (fun y hy => hy) x hx

/-- Every name the Kahn loop ever appends to the sorted list was
initially queued, was already sorted, or is an edge target of some
fragment: the invariant-propagating form. -/
theorem kahnGo_sorted_sub {outE : List (List Char × List (List Char))}
    (P : List Char → Prop)
    (hE : ∀ f, ∀ x ∈ lookupD f [] outE, P x) :
    ∀ (fuel : Nat) (queue : List (List Char)) (degs : List (List Char × Int))
      (sorted : List (List Char)),
      (∀ x ∈ queue, P x) → (∀ x ∈ sorted, P x) →
      ∀ x ∈ (kahnGo outE fuel queue degs sorted).2, P x := by
  intro fuel
  induction fuel with
  | zero => intro queue degs sorted hQ hS x hx; exact hS x (by simpa [kahnGo] using hx)
  | succ n ih =>
    intro queue degs sorted hQ hS x hx
    match queue with
    | [] => exact hS x (by simpa [kahnGo] using hx)
    | f :: q =>
      rw [kahnGo] at hx
      refine ih _ _ _ ?_ ?_ x hx
      · intro y hy
        rcases kahnStep_queue_sub y hy with h1 | h1
        · exact hQ y (List.mem_cons_of_mem _ h1)
        · exact hE f y h1
      · intro y hy
        rcases List.mem_append.mp hy with h1 | h1
        · exact hS y h1
        · rw [List.mem_singleton.mp h1]
          exact hQ f (List.mem_cons_self _ _)

/-- Every name a successful toposort emits is a registered fragment name,
provided every edge target in the out-edge map is registered and the
degree map ranges over the registered names. -/
theorem toposort_mem_keys {srcs : List (List Char × List Char)}
    {outE : List (List Char × List (List Char))}
    {inDegs : List (List Char × Int)} {sorted : List (List Char)}
    (hE : ∀ pr ∈ outE, ∀ x ∈ pr.2, keyMem x srcs = true)
    (hD : inDegs.map Prod.fst = srcs.map Prod.fst)
    (h : toposort outE inDegs = Except.ok sorted) :
    ∀ x ∈ sorted, keyMem x srcs = true := by
  unfold toposort at h
  by_cases hf : ((inDegs.filter (fun p => p.2 = 0)).map (fun p => p.1)).length ≠ 1
  · rw [if_pos hf] at h
    cases h
  · rw [if_neg hf] at h
    by_cases hz : (kahnGo outE (inDegs.length + 1)
        ((inDegs.filter (fun p => p.2 = 0)).map (fun p => p.1)) inDegs []).1.any
        (fun p => p.2 ≠ 0)
    · rw [if_pos hz] at h
      cases h
    · rw [if_neg hz] at h
      injection h with h
      rw [← h]
      refine kahnGo_sorted_sub (fun x => keyMem x srcs = true) ?_ _ _ _ _ ?_ (by simp)
      · intro f x hx
        unfold lookupD at hx
        cases hlf : lookupA f outE with
        | none => rw [hlf] at hx; cases hx
        | some es =>
          rw [hlf] at hx
          exact hE (f, es) (lookupA_mem hlf) x hx
      · intro x hx
        rcases List.mem_map.mp hx with ⟨p, hp, hp1⟩
        have hpd : p ∈ inDegs := List.mem_of_mem_filter hp
        have : p.1 ∈ srcs.map Prod.fst := by
          rw [← hD]
          exact List.mem_map.mpr ⟨p, hpd, rfl⟩
        rcases List.mem_map.mp this with ⟨q, hq, hq1⟩
        rw [← hp1, ← hq1]
        obtain ⟨a, b⟩ := q
        exact keyMem_of_mem hq

/-! ## Registry preservation through substitution -/

/-- The replace loop body never touches the registry. -/
theorem replStep_srcs (single : List (List Char × Bool)) (name : List Char)
    (st : SubstState) (incl : List Char) :
    (replStep single name st incl).srcs = st.srcs := by
  unfold replStep
  split <;> rfl

/-- The delete loop body never touches the registry. -/
theorem delStep_srcs (st : SubstState) (incl : List Char) :
    (delStep st incl).srcs = st.srcs := rfl

/-- A fold whose body preserves the registry preserves it. -/
theorem foldl_srcs_eq {β : Type} (f : SubstState → β → SubstState)
    (hf : ∀ st i, (f st i).srcs = st.srcs) :
    ∀ (l : List β) (st : SubstState), (l.foldl f st).srcs = st.srcs := by
  intro l
  induction l with
  | nil => intro st; rfl
  | cons i is ih =>
    intro st
    rw [List.foldl_cons, ih, hf]

/-- Processing one fragment reads the registry through `operator[]` and
changes it in no other way. -/
theorem substFrag_srcs (single : List (List Char × Bool))
    (outE : List (List Char × List (List Char)))
    (st : SubstState) (name : List Char) :
    (substFrag single outE st name).srcs = (getOrInsert name [] st.srcs).2 := by
  unfold substFrag
  rw [foldl_srcs_eq _ (delStep_srcs), foldl_srcs_eq _ (replStep_srcs single name)]


/-- The fold of fragment processing steps leaves the registry unchanged
when every processed name is registered. -/
theorem substFold_srcs (single : List (List Char × Bool))
    (outE : List (List Char × List (List Char))) :
    ∀ (l : List (List Char)) (st : SubstState),
      (∀ x ∈ l, keyMem x st.srcs = true) →
      (l.foldl (substFrag single outE) st).srcs = st.srcs := by
  intro l
  induction l with
  | nil => intro st _; rfl
  | cons n ns ih =>
    intro st h
    rw [List.foldl_cons]
    have h1 : (substFrag single outE st n).srcs = st.srcs := by
      rw [substFrag_srcs]
      exact getOrInsert_snd_of_keyMem (h n (List.mem_cons_self _ _))
    rw [ih _ (by rw [h1]; exact fun x hx => h x (List.mem_cons_of_mem _ hx)), h1]

/-- The substitution walk leaves the registry unchanged when every
processed name is registered. -/
theorem substitute_srcs {single : List (List Char × Bool)}
    {outE : List (List Char × List (List Char))}
    {srcs : List (List Char × List Char)} {sorted : List (List Char)}
    (h : ∀ x ∈ sorted, keyMem x srcs = true) :
    (substitute single outE sorted srcs).srcs = srcs := by
  unfold substitute
  exact substFold_srcs single outE sorted.reverse _
    (fun x hx => h x (List.mem_reverse.mp hx))

/-- Key set of the degree map: it ranges exactly over the registered
fragment names. -/
theorem get_degrees_fst (srcs : List (List Char × List Char))
    (edges : List (List Char × List (List Char))) :
    (get_degrees srcs edges).map Prod.fst = srcs.map Prod.fst := by
  unfold get_degrees
  rw [List.map_map]
  rfl

/-- A merge call leaves the glsl_include registry untouched, whether it
returns a merged string or an error. -/
theorem include_merge_fst (srcs : List (List Char × List Char)) :
    (glsl_include.merge srcs).1 = srcs := by
  unfold glsl_include.merge
  cases hg : get_out_edges srcs with
  | error e => rfl
  | ok outE =>
    simp only
    cases ht : toposort outE (get_degrees srcs (get_in_edges outE)) with
    | error e => rfl
    | ok sorted =>
      simp only
      refine substitute_srcs ?_
      refine toposort_mem_keys ?_ (get_degrees_fst srcs (get_in_edges outE)) ht
      exact (get_out_edges_go_ok hg).2

/-- `find_edges` preserves the registry and pragma members, returns the
validated out-edge map, and stores the inverted in-edge map. -/
theorem find_edges_ok {b b2 : Builder}
    (h : glsl_builder.find_edges b = Except.ok b2) :
    b2.srcs_ = b.srcs_ ∧ get_out_edges b.srcs_ = Except.ok b2.out_edges_ ∧
      b2.in_edges_ = get_in_edges b2.out_edges_ ∧
      b2.pragma_once_ = b.pragma_once_ := by
  unfold glsl_builder.find_edges at h
  cases hg : get_out_edges b.srcs_ with
  | error e => rw [hg] at h; cases h
  | ok outE =>
    rw [hg] at h
    injection h with h
    rw [← h]
    exact ⟨rfl, rfl, rfl, rfl⟩

/-- `toposortB` preserves every member but `sorted_`, which it sets to a
successful toposort of the member graph. -/
theorem toposortB_ok {b b4 : Builder}
    (h : glsl_builder.toposortB b = Except.ok b4) :
    b4.srcs_ = b.srcs_ ∧ b4.out_edges_ = b.out_edges_ ∧
      b4.pragma_once_ = b.pragma_once_ ∧
      toposort b.out_edges_ b.in_degrees_ = Except.ok b4.sorted_ := by
  unfold glsl_builder.toposortB at h
  cases ht : toposort b.out_edges_ b.in_degrees_ with
  | error e => rw [ht] at h; cases h
  | ok sorted =>
    rw [ht] at h
    injection h with h
    rw [← h]
    exact ⟨rfl, rfl, rfl, rfl⟩

/-- A build call leaves the glsl_builder registry untouched, whether it
returns a merged string or an error. -/
theorem build_srcs (b : Builder) : (glsl_builder.build b).1.srcs_ = b.srcs_ := by
  unfold glsl_builder.build
  cases hf : glsl_builder.find_edges (glsl_builder.find_pragma_once b) with
  | error e => rfl
  | ok b2 =>
    simp only
    obtain ⟨hs2, he2, hin2, hpr2⟩ := find_edges_ok hf
    cases ht : glsl_builder.toposortB (glsl_builder.find_degrees b2) with
    | error e =>
      show b2.srcs_ = b.srcs_
      exact hs2.trans rfl
    | ok b4 =>
      simp only
      obtain ⟨hs4, he4, hp4, ht4⟩ := toposortB_ok ht
      show (substitute b4.pragma_once_ b4.out_edges_ b4.sorted_ b4.srcs_).srcs = b.srcs_
      have hsrcs : b4.srcs_ = b.srcs_ := by
        rw [hs4]
        exact hs2.trans rfl
      refine (substitute_srcs ?_).trans hsrcs
      have hgo : get_out_edges b2.srcs_ = Except.ok b2.out_edges_ := by
        rw [hs2]
        exact he2
      have ht4b : toposort b2.out_edges_ (get_degrees b2.srcs_ b2.in_edges_) =
          Except.ok b4.sorted_ := ht4
      have hmem := toposort_mem_keys (get_out_edges_go_ok hgo).2
        (get_degrees_fst b2.srcs_ b2.in_edges_) ht4b
      intro x hx
      have h2 := hmem x hx
      rw [hs2] at h2
      have h3 : keyMem x b.srcs_ = true := h2
      rw [hsrcs]
      exact h3

/-! ## C9 -/

/-- C9: a merge call never modifies the fragment registry: the
glsl_include registry is returned unchanged on success and on every
error, the glsl_builder member `srcs_` is unchanged by `build`, and
`get(n)` returns the same string before and after a build. -/
theorem merge_never_modifies_registry (srcs : List (List Char × List Char))
    (b : Builder) (n : List Char) :
    (glsl_include.merge srcs).1 = srcs ∧
      (glsl_builder.build b).1.srcs_ = b.srcs_ ∧
      glsl_builder.get n (glsl_builder.build b).1 = glsl_builder.get n b := by
  refine ⟨include_merge_fst srcs, build_srcs b, ?_⟩
  unfold glsl_builder.get
  rw [build_srcs b]

/-- The result component of a build call is a function of the registry
alone: every internal member that feeds it is cleared and recomputed
from `srcs_` during the call. -/
theorem build_snd (b : Builder) : (glsl_builder.build b).2 = buildResult b.srcs_ := by
  unfold glsl_builder.build buildResult
  cases hf : glsl_builder.find_edges (glsl_builder.find_pragma_once b) with
  | error e =>
    unfold glsl_builder.find_edges at hf
    cases hg : get_out_edges b.srcs_ with
    | error e2 =>
      have hg2 : get_out_edges (glsl_builder.find_pragma_once b).srcs_ =
          Except.error e2 := hg
      rw [hg2] at hf
      injection hf with hf
      subst hf
      rfl
    | ok outE =>
      have hg2 : get_out_edges (glsl_builder.find_pragma_once b).srcs_ =
          Except.ok outE := hg
      rw [hg2] at hf
      cases hf
  | ok b2 =>
    obtain ⟨hs2, he2, hin2, hpr2⟩ := find_edges_ok hf
    have hg : get_out_edges b.srcs_ = Except.ok b2.out_edges_ := he2
    rw [hg]
    dsimp only
    have hbs : b2.srcs_ = b.srcs_ := hs2.trans rfl
    cases ht : glsl_builder.toposortB (glsl_builder.find_degrees b2) with
    | error e =>
      unfold glsl_builder.toposortB at ht
      cases ht2 : toposort b2.out_edges_
          (get_degrees b.srcs_ (get_in_edges b2.out_edges_)) with
      | error e2 =>
        have ht3 : toposort (glsl_builder.find_degrees b2).out_edges_
            (glsl_builder.find_degrees b2).in_degrees_ = Except.error e2 := by
          show toposort b2.out_edges_ (get_degrees b2.srcs_ b2.in_edges_) =
            Except.error e2
          rw [hbs, hin2]
          exact ht2
        rw [ht3] at ht
        injection ht with ht
        subst ht
        rfl
      | ok sorted =>
        have ht3 : toposort (glsl_builder.find_degrees b2).out_edges_
            (glsl_builder.find_degrees b2).in_degrees_ = Except.ok sorted := by
          show toposort b2.out_edges_ (get_degrees b2.srcs_ b2.in_edges_) =
            Except.ok sorted
          rw [hbs, hin2]
          exact ht2
        rw [ht3] at ht
        cases ht
    | ok b4 =>
      dsimp only
      obtain ⟨hs4, he4, hp4, ht4⟩ := toposortB_ok ht
      have ht4b : toposort b2.out_edges_
          (get_degrees b.srcs_ (get_in_edges b2.out_edges_)) =
          Except.ok b4.sorted_ := by
        rw [← hbs, ← hin2]
        exact ht4
      rw [ht4b]
      dsimp only
      have hp : b4.pragma_once_ = b.srcs_.map (fun p => (p.1, has_pragma_once p.2)) := by
        rw [hp4]
        show b2.pragma_once_ = _
        rw [hpr2]
        rfl
      have hsb : b4.srcs_ = b.srcs_ := by
        rw [hs4]
        exact hs2.trans rfl
      have hob : b4.out_edges_ = b2.out_edges_ := he4
      rw [hp, hsb, hob]

/-! ## C8 -/

/-- C8 amended: repeated merge calls on the same engine are idempotent —
the registry is unchanged by a call, so an immediately repeated call
returns the identical result — for both variants; registration ORDER,
however, can change the result (see the counterexample). -/
theorem repeated_merge_idempotent (srcs : List (List Char × List Char))
    (b : Builder) :
    glsl_include.merge ((glsl_include.merge srcs).1) = glsl_include.merge srcs ∧
      (glsl_builder.build (glsl_builder.build b).1).2 = (glsl_builder.build b).2 := by
  constructor
  · rw [include_merge_fst]
  · rw [build_snd, build_snd, build_srcs]

/-! ## C4 -/

/-- C4 amended: the two engine variants agree on every fragment set on
which their two pragma detectors agree (in particular whenever no
fragment has a line-anchored `#pragma once` away from the begin of its
content); they can differ otherwise, because `glsl_builder` compiles the
detector regex without std::regex::multiline. -/
theorem variants_agree_when_detectors_agree (b : Builder)
    (h : ∀ p ∈ b.srcs_, has_pragma_once p.2 = has_pragma_once_ml p.2) :
    (glsl_builder.build b).2 = (glsl_include.merge b.srcs_).2 := by
  rw [build_snd]
  unfold buildResult glsl_include.merge
  cases hg : get_out_edges b.srcs_ with
  | error e => rfl
  | ok outE =>
    simp only
    cases ht : toposort outE (get_degrees b.srcs_ (get_in_edges outE)) with
    | error e => rfl
    | ok sorted =>
      simp only
      have hm : b.srcs_.map (fun p => (p.1, has_pragma_once p.2)) =
          glsl_include.is_single_include b.srcs_ := by
        unfold glsl_include.is_single_include
        exact List.map_congr_left (fun p hp => by rw [h p hp])
      rw [hm]

/-- Witness for the C4 amended theorem: a fragment set whose pragma
markers are all at the begin of their fragment, where both detectors
agree, so the two engines return the same result. -/
theorem variants_agree_when_detectors_agree_witness :
    (∀ p ∈ ({ srcs_ := [("r".data, "#include <F>\nR\n".data),
        ("F".data, "#pragma once\nFF\n".data)] } : Builder).srcs_,
        has_pragma_once p.2 = has_pragma_once_ml p.2) ∧
      (glsl_builder.build { srcs_ := [("r".data, "#include <F>\nR\n".data),
        ("F".data, "#pragma once\nFF\n".data)] }).2 =
        (glsl_include.merge [("r".data, "#include <F>\nR\n".data),
          ("F".data, "#pragma once\nFF\n".data)]).2 := by
  refine ⟨by decide, ?_⟩
  exact variants_agree_when_detectors_agree _ (by decide)

/-! ## C7 -/

/-- A failed edge check names a referenced, unregistered name. -/
theorem checkEdges_error {srcs : List (List Char × List Char)}
    {es : List (List Char)} {e : Err}
    (h : checkEdges srcs es = Except.error e) :
    ∃ t ∈ es, e = Err.missingDependency t ∧ keyMem t srcs = false := by
  induction es with
  | nil => rw [checkEdges] at h; cases h
  | cons t ts ih =>
    by_cases ht : keyMem t srcs = true
    · rw [checkEdges, if_pos ht] at h
      rcases ih h with ⟨t2, ht2, he, hk⟩
      exact ⟨t2, List.mem_cons_of_mem _ ht2, he, hk⟩
    · rw [checkEdges, if_neg ht] at h
      injection h with h
      exact ⟨t, List.mem_cons_self _ _,  h.symm, Bool.not_eq_true _ ▸ eq_false_of_ne_true ht⟩

/-- When some fragment of the scanned list references an unregistered
name, the out-edge construction fails with a MissingDependency error
naming a referenced, unregistered name. -/
theorem get_out_edges_go_missing {srcs : List (List Char × List Char)} :
    ∀ {l : List (List Char × List Char)},
      (∃ p ∈ l, ∃ m ∈ extract_includes p.2, keyMem m srcs = false) →
      ∃ m2, get_out_edges_go srcs l = Except.error (Err.missingDependency m2) ∧
        (∃ p ∈ l, m2 ∈ extract_includes p.2) ∧ keyMem m2 srcs = false := by
  intro l
  induction l with
  | nil =>
    intro h
    rcases h with ⟨p, hp, _⟩
    cases hp
  | cons q rest ih =>
    intro h
    obtain ⟨name, content⟩ := q
    rw [get_out_edges_go]
    cases hc : checkEdges srcs (extract_includes content) with
    | error e =>
      rcases checkEdges_error hc with ⟨t, hts, he, hk⟩
      subst he
      exact ⟨t, rfl, ⟨(name, content), List.mem_cons_self _ _, hts⟩, hk⟩
    | ok u =>
      have hall := checkEdges_ok (by rw [hc])
      have hrest : ∃ p ∈ rest, ∃ m ∈ extract_includes p.2, keyMem m srcs = false := by
        rcases h with ⟨p, hp, m, hm, hkm⟩
        rcases List.mem_cons.mp hp with h1 | h1
        · rw [h1] at hm
          exact absurd (hall m hm) (by rw [hkm]; simp)
        · exact ⟨p, h1, m, hm, hkm⟩
      rcases ih hrest with ⟨m2, hout, href, hk2⟩
      rw [hout]
      exact ⟨m2, rfl, ⟨href.choose, List.mem_cons_of_mem _ href.choose_spec.1,
        href.choose_spec.2⟩, hk2⟩

/-- C7: referencing an unregistered name makes merge()/build() fail with
MissingDependency naming exactly the missing name (when it is the unique
missing reference), and the failure is decided by the out-edge
validation alone, before the root and cycle checks: the conclusion holds
for every fragment set whatever its graph shape. -/
theorem missing_reference_reports_missing_dependency
    (srcs : List (List Char × List Char)) (n c m : List Char)
    (hmem : (n, c) ∈ srcs) (href : m ∈ extract_includes c)
    (hmiss : keyMem m srcs = false)
    (huniq : ∀ p ∈ srcs, ∀ r ∈ extract_includes p.2,
      keyMem r srcs = false → r = m) :
    (glsl_include.merge srcs).2 = Except.error (Err.missingDependency m) ∧
      (glsl_builder.build { srcs_ := srcs }).2 =
        Except.error (Err.missingDependency m) := by
  have hex : ∃ p ∈ srcs, ∃ m2 ∈ extract_includes p.2, keyMem m2 srcs = false :=
    ⟨(n, c), hmem, m, href, hmiss⟩
  rcases get_out_edges_go_missing hex with ⟨m2, hout, ⟨p, hp, hpm⟩, hk2⟩
  have hm2 : m2 = m := huniq p hp m2 hpm hk2
  subst hm2
  have herr : get_out_edges srcs = Except.error (Err.missingDependency m2) := hout
  constructor
  · unfold glsl_include.merge
    rw [herr]
  · rw [build_snd]
    unfold buildResult
    show (match get_out_edges srcs with
      | Except.error e => Except.error e
      | Except.ok outE =>
        match toposort outE (get_degrees srcs (get_in_edges outE)) with
        | Except.error e => Except.error e
        | Except.ok sorted =>
          Except.ok (erase_header_guard
            (substitute (srcs.map (fun p : List Char × List Char =>
              (p.1, has_pragma_once p.2))) outE sorted srcs).content)) = _
    rw [herr]

/-- Witness for the C7 theorem at a concrete fragment set with a unique
missing reference. -/
theorem missing_reference_reports_missing_dependency_witness :
    (glsl_include.merge [("A".data, "#include <x>\nA\n".data)]).2 =
        Except.error (Err.missingDependency "x".data) ∧
      (glsl_builder.build { srcs_ := [("A".data, "#include <x>\nA\n".data)] }).2 =
        Except.error (Err.missingDependency "x".data) :=
  missing_reference_reports_missing_dependency
    [("A".data, "#include <x>\nA\n".data)] "A".data "#include <x>\nA\n".data "x".data
    (by decide) (by decide) (by decide) (by decide)

/-! ## C3: lemmas about setKey, decKey and the in-edge map -/

/-- Lookup after setting the same key. -/
theorem lookupA_setKey_self {α : Type} (k : List Char) (v : α)
    (l : List (List Char × α)) : lookupA k (setKey k v l) = some v := by
  induction l with
  | nil => simp [setKey, lookupA]
  | cons p ps ih =>
    by_cases hk : p.1 = k
    · simp [setKey, hk, lookupA]
    · simp only [setKey, hk, if_neg, not_false_iff]
      rw [lookupA, if_neg hk]
      exact ih

/-- Lookup after setting a different key. -/
theorem lookupA_setKey_ne {α : Type} {u k : List Char} (v : α)
    (l : List (List Char × α)) (h : u ≠ k) :
    lookupA u (setKey k v l) = lookupA u l := by
  have hku : ¬((k, v).1 = u) := fun hh => h hh.symm
  induction l with
  | nil =>
    simp only [setKey, lookupA]
    rw [if_neg hku]
  | cons p ps ih =>
    by_cases hk : p.1 = k
    · simp only [setKey, hk, if_pos, lookupA]
      have hne : ¬k = u := fun hh => h hh.symm
      simp [hne]
    · simp only [setKey, hk, if_neg, not_false_iff, lookupA]
      by_cases hu : p.1 = u
      · rw [if_pos hu, if_pos hu]
      · rw [if_neg hu, if_neg hu]
        exact ih

/-- The key set survives a setKey. -/
theorem keyMem_setKey {α : Type} {u k : List Char} (v : α)
    (l : List (List Char × α)) (h : keyMem u l = true) :
    keyMem u (setKey k v l) = true := by
  by_cases hk : u = k
  · rw [keyMem_eq_isSome, hk, lookupA_setKey_self]
    rfl
  · rw [keyMem_eq_isSome, lookupA_setKey_ne v l hk, ← keyMem_eq_isSome]
    exact h

/-- Lookup-with-default after a degree decrement. -/
theorem lookupD_decKey (u t : List Char) (l : List (List Char × Int)) :
    lookupD u 0 (decKey t l) =
      lookupD u 0 l - (if u = t then 1 else 0) := by
  unfold decKey
  by_cases hu : u = t
  · rw [if_pos hu, hu]
    unfold lookupD
    rw [lookupA_setKey_self]
    rfl
  · rw [if_neg hu]
    unfold lookupD
    rw [lookupA_setKey_ne _ _ hu]
    simp

/-- Keys survive a degree decrement. -/
theorem keyMem_decKey {u : List Char} (t : List Char)
    (l : List (List Char × Int)) (h : keyMem u l = true) :
    keyMem u (decKey t l) = true :=
  keyMem_setKey _ l h

/-- setInsert only grows the set. -/
theorem mem_setInsert_of_mem {x y : List Char} {l : List (List Char)}
    (h : x ∈ l) : x ∈ setInsert y l := by
  unfold setInsert
  split
  · exact h
  · exact List.mem_append_left _ h

/-- setInsert contains the inserted element. -/
theorem mem_setInsert_self (x : List Char) (l : List (List Char)) :
    x ∈ setInsert x l := by
  unfold setInsert
  split
  · assumption
  · exact List.mem_append_right _ (List.mem_singleton.mpr rfl)

/-- setInsert preserves duplicate freedom. -/
theorem nodup_setInsert {x : List Char} {l : List (List Char)}
    (h : l.Nodup) : (setInsert x l).Nodup := by
  unfold setInsert
  split
  · exact h
  · rename_i hx
    simp [List.nodup_append, h, hx]

/-- Inner loop of the in-edge inversion, named for the proofs below. -/
theorem get_in_edges_eq (outE : List (List Char × List (List Char))) :
    get_in_edges outE = outE.foldl
      (fun acc p => p.2.foldl
        (fun acc2 tgt => setKey tgt (setInsert p.1 (lookupD tgt [] acc2)) acc2)
        acc) [] := rfl

/-- One inner step of the in-edge inversion only grows each value set. -/
theorem inEdges_inner_mono {w u : List Char} {from2 : List Char} :
    ∀ (es : List (List Char)) (acc : List (List Char × List (List Char))),
      w ∈ lookupD u [] acc →
      w ∈ lookupD u [] (es.foldl
        (fun acc2 tgt => setKey tgt (setInsert from2 (lookupD tgt [] acc2)) acc2)
        acc) := by
  intro es
  induction es with
  | nil => intro acc h; exact h
  | cons t ts ih =>
    intro acc h
    rw [List.foldl_cons]
    refine ih _ ?_
    by_cases hu : u = t
    · subst hu
      unfold lookupD
      rw [lookupA_setKey_self]
      exact mem_setInsert_of_mem h
    · unfold lookupD
      rw [lookupA_setKey_ne _ _ hu]
      exact h

/-- After the inner inversion step for an entry (from2, es), `from2` is
recorded as an includer of every member of `es`. -/
theorem inEdges_inner_adds {u : List Char} {from2 : List Char} :
    ∀ (es : List (List Char)) (acc : List (List Char × List (List Char))),
      u ∈ es →
      from2 ∈ lookupD u [] (es.foldl
        (fun acc2 tgt => setKey tgt (setInsert from2 (lookupD tgt [] acc2)) acc2)
        acc) := by
  intro es
  induction es with
  | nil => intro acc h; cases h
  | cons t ts ih =>
    intro acc h
    rw [List.foldl_cons]
    rcases List.mem_cons.mp h with h1 | h1
    · subst h1
      refine inEdges_inner_mono ts _ ?_
      unfold lookupD
      rw [lookupA_setKey_self]
      exact mem_setInsert_self _ _
    · exact ih _ h1

/-- Completeness of the in-edge inversion: every recorded out-edge is
reflected as an in-edge. -/
theorem mem_inEdges_of_edge {outE : List (List Char × List (List Char))}
    {w u : List Char} {es : List (List Char)}
    (hw : (w, es) ∈ outE) (hu : u ∈ es) :
    w ∈ lookupD u [] (get_in_edges outE) := by
  rw [get_in_edges_eq]
  have main : ∀ (l : List (List Char × List (List Char)))
      (acc : List (List Char × List (List Char))),
      (w, es) ∈ l ∨ w ∈ lookupD u [] acc →
      w ∈ lookupD u [] (l.foldl
        (fun acc p => p.2.foldl
          (fun acc2 tgt => setKey tgt (setInsert p.1 (lookupD tgt [] acc2)) acc2)
          acc) acc) := by
    intro l
    induction l with
    | nil =>
      intro acc h
      rcases h with h | h
      · cases h
      · exact h
    | cons p ps ih =>
      intro acc h
      rw [List.foldl_cons]
      rcases h with h | h
      · rcases List.mem_cons.mp h with h1 | h1
        · refine ih _ (Or.inr ?_)
          rw [← h1]
          exact inEdges_inner_adds es acc hu
        · exact ih _ (Or.inl h1)
      · exact ih _ (Or.inr (inEdges_inner_mono p.2 acc h))
  exact main outE [] (Or.inl hw)

/-- Every value list of the in-edge map is duplicate free. -/
theorem inEdges_nodup (outE : List (List Char × List (List Char)))
    (u : List Char) : (lookupD u [] (get_in_edges outE)).Nodup := by
  rw [get_in_edges_eq]
  have inner : ∀ (es : List (List Char)) (from2 : List Char)
      (acc : List (List Char × List (List Char))),
      (∀ x, (lookupD x [] acc).Nodup) →
      ∀ x, (lookupD x [] (es.foldl
        (fun acc2 tgt => setKey tgt (setInsert from2 (lookupD tgt [] acc2)) acc2)
        acc)).Nodup := by
    intro es from2
    induction es with
    | nil => intro acc h x; exact h x
    | cons t ts ih =>
      intro acc h x
      rw [List.foldl_cons]
      refine ih _ ?_ x
      intro y
      by_cases hy : y = t
      · subst hy
        unfold lookupD
        rw [lookupA_setKey_self]
        exact nodup_setInsert (h y)
      · unfold lookupD
        rw [lookupA_setKey_ne _ _ hy]
        exact h y
  have main : ∀ (l : List (List Char × List (List Char)))
      (acc : List (List Char × List (List Char))),
      (∀ x, (lookupD x [] acc).Nodup) →
      ∀ x, (lookupD x [] (l.foldl
        (fun acc p => p.2.foldl
          (fun acc2 tgt => setKey tgt (setInsert p.1 (lookupD tgt [] acc2)) acc2)
          acc) acc)).Nodup := by
    intro l
    induction l with
    | nil => intro acc h x; exact h x
    | cons p ps ih =>
      intro acc h x
      rw [List.foldl_cons]
      exact ih _ (inner p.2 p.1 acc h) x
  refine main outE [] ?_ u
  intro x
  show (lookupD x [] []).Nodup
  unfold lookupD lookupA
  exact List.nodup_nil

/-- The scanner accumulates a duplicate-free name set. -/
theorem extractGo_nodup :
    ∀ (fuel : Nat) (s : List Char) (acc : List (List Char)),
      acc.Nodup → (extractGo fuel s acc).Nodup := by
  intro fuel
  induction fuel with
  | zero => intro s acc h; exact h
  | succ n ih =>
    intro s acc h
    rw [extractGo]
    cases hs : searchFirst (fun t =>
        (matchDirective t).map (fun pr => ((pr.1, pr.2.1), pr.2.2))) true s with
    | none => exact h
    | some pr =>
      obtain ⟨pre, ⟨mt, nm⟩, rest⟩ := pr
      refine ih _ _ ?_
      unfold setInsert
      split
      · exact h
      · rename_i hnm
        simp [List.nodup_append, h, hnm]

/-- The scanned include set of a fragment is duplicate free. -/
theorem extract_includes_nodup (src : List Char) :
    (extract_includes src).Nodup :=
  extractGo_nodup _ _ _ List.nodup_nil

/-- A successful lookup in a mapped association list comes from an
underlying entry. -/
theorem lookupA_map_shape {α : Type} {f : List Char × List Char → α}
    {srcs : List (List Char × List Char)} {u : List Char} {v : α}
    (h : lookupA u (srcs.map (fun p => (p.1, f p))) = some v) :
    ∃ p ∈ srcs, p.1 = u ∧ v = f p := by
  induction srcs with
  | nil => rw [List.map_nil, lookupA] at h; cases h
  | cons p ps ih =>
    rw [List.map_cons, lookupA] at h
    by_cases hu : p.1 = u
    · rw [if_pos hu] at h
      injection h with h
      exact ⟨p, List.mem_cons_self _ _, hu, h.symm⟩
    · rw [if_neg hu] at h
      rcases ih h with ⟨q, hq, hq1, hq2⟩
      exact ⟨q, List.mem_cons_of_mem _ hq, hq1, hq2⟩

/-- Key membership is invariant under mapping entry values. -/
theorem keyMem_map {α : Type} {f : List Char × List Char → α}
    {srcs : List (List Char × List Char)} {u : List Char} :
    keyMem u (srcs.map (fun p => (p.1, f p))) = keyMem u srcs := by
  induction srcs with
  | nil => rfl
  | cons p ps ih =>
    rw [List.map_cons, keyMem, keyMem, List.any_cons, List.any_cons]
    show (decide (p.1 = u) || _) = (decide (p.1 = u) || _)
    rw [show (List.map (fun p => (p.1, f p)) ps).any (fun q => q.1 = u) =
      keyMem u (ps.map (fun p => (p.1, f p))) from rfl, ih]
    rfl

/-- Lookup of a key-determined mapped association list. -/
theorem lookupA_map_keyfun {α : Type} {F : List Char → α}
    {srcs : List (List Char × List Char)} {u : List Char}
    (h : keyMem u srcs = true) :
    lookupA u (srcs.map (fun p => (p.1, F p.1))) = some (F u) := by
  have hk : keyMem u (srcs.map (fun p => (p.1, F p.1))) = true := by
    rw [keyMem_map]
    exact h
  rcases lookupA_of_keyMem hk with ⟨v, hv⟩
  rcases lookupA_map_shape hv with ⟨p, _, hp1, hp2⟩
  rw [hv, hp2, hp1]

/-- Every out-edge set of a validated out-edge map is duplicate free. -/
theorem outSet_nodup {srcs : List (List Char × List Char)}
    {outE : List (List Char × List (List Char))}
    (houtE : outE = srcs.map (fun p => (p.1, extract_includes p.2)))
    (w : List Char) : (lookupD w [] outE).Nodup := by
  unfold lookupD
  cases hl : lookupA w outE with
  | none => exact List.nodup_nil
  | some es =>
    rw [houtE] at hl
    rcases lookupA_map_shape hl with ⟨p, _, _, hp2⟩
    rw [Option.getD_some, hp2]
    exact extract_includes_nodup p.2

/-- Every out-edge is reflected as an in-edge. -/
theorem inSet_complete {outE : List (List Char × List (List Char))}
    {w u : List Char} (h : u ∈ lookupD w [] outE) :
    w ∈ lookupD u [] (get_in_edges outE) := by
  unfold lookupD at h
  cases hl : lookupA w outE with
  | none => rw [hl] at h; cases h
  | some es =>
    rw [hl] at h
    exact mem_inEdges_of_edge (lookupA_mem hl) h

/-- Every node with an outgoing edge is a key of the out-edge map, hence
a registered name. -/
theorem edge_source_keyMem {srcs : List (List Char × List Char)}
    {outE : List (List Char × List (List Char))}
    (houtE : outE = srcs.map (fun p => (p.1, extract_includes p.2)))
    {w u : List Char} (h : u ∈ lookupD w [] outE) : keyMem w srcs = true := by
  unfold lookupD at h
  cases hl : lookupA w outE with
  | none => rw [hl] at h; cases h
  | some es =>
    have : keyMem w outE = true := by
      rw [keyMem_eq_isSome, hl]
      rfl
    rw [houtE] at this
    rw [← keyMem_map (f := fun p => extract_includes p.2)]
    exact this

/-- Every node on a reference cycle is a registered name. -/
theorem cyc_keyMem {srcs : List (List Char × List Char)}
    {outE : List (List Char × List (List Char))}
    (houtE : outE = srcs.map (fun p => (p.1, extract_includes p.2)))
    {u : List Char} (h : Relation.TransGen (hasEdge outE) u u) :
    keyMem u srcs = true := by
  rcases Relation.TransGen.head'_iff.mp h with ⟨b, hb, _⟩
  exact edge_source_keyMem houtE hb

/-- Every node on a reference cycle has an includer that is itself on a
reference cycle. -/
theorem cyc_pred {outE : List (List Char × List (List Char))} {u : List Char}
    (h : Relation.TransGen (hasEdge outE) u u) :
    ∃ p, Relation.TransGen (hasEdge outE) p p ∧ u ∈ lookupD p [] outE := by
  rcases Relation.TransGen.tail'_iff.mp h with ⟨b, hb, hbu⟩
  exact ⟨b, Relation.TransGen.trans_left (Relation.TransGen.single hbu) hb, hbu⟩

/-- Invariant preservation through one Kahn expansion step.  `processed`
is the list of already expanded names, `from_ :: queue` the current
queue.  The four invariants: queue and processed names are distinct;
their degree entries are nonpositive; each registered name's degree
entry counts its includers not yet expanded; no cycle node is queued or
expanded. -/
theorem kahnStep_inv {srcs : List (List Char × List Char)}
    {outE : List (List Char × List (List Char))}
    (houtE : outE = srcs.map (fun p => (p.1, extract_includes p.2)))
    (from_ : List Char) (queue processed : List (List Char))
    (degs : List (List Char × Int))
    (pre1 : (processed ++ from_ :: queue).Nodup)
    (pre2 : ∀ u ∈ processed ++ from_ :: queue, lookupD u 0 degs ≤ 0)
    (pre3 : ∀ u, keyMem u srcs = true →
      lookupD u 0 degs = ((lookupD u [] (get_in_edges outE)).length : Int)
        - ((processed.filter (fun w => decide (u ∈ lookupD w [] outE))).length : Int))
    (pre4 : ∀ u, Relation.TransGen (hasEdge outE) u u →
      u ∉ processed ++ from_ :: queue) :
    ((processed ++ [from_]) ++ (kahnStep outE from_ degs queue).2).Nodup ∧
      (∀ u ∈ (processed ++ [from_]) ++ (kahnStep outE from_ degs queue).2,
        lookupD u 0 (kahnStep outE from_ degs queue).1 ≤ 0) ∧
      (∀ u, keyMem u srcs = true →
        lookupD u 0 (kahnStep outE from_ degs queue).1 =
          ((lookupD u [] (get_in_edges outE)).length : Int)
            - (((processed ++ [from_]).filter
              (fun w => decide (u ∈ lookupD w [] outE))).length : Int)) ∧
      (∀ u, Relation.TransGen (hasEdge outE) u u →
        u ∉ (processed ++ [from_]) ++ (kahnStep outE from_ degs queue).2) := by
  have hproc_nodup : processed.Nodup := (List.nodup_append.mp pre1).1
  have hdisj : processed.Disjoint (from_ :: queue) := (List.nodup_append.mp pre1).2.2
  have hfrom_not_proc : from_ ∉ processed := fun hmem =>
    hdisj hmem (List.mem_cons_self _ _)
  unfold kahnStep
  have hesnd : (lookupD from_ [] outE).Nodup := outSet_nodup houtE from_
  -- Generalize over the out-edge suffix still to process.
  suffices main : ∀ (rem done : List (List Char))
      (st : List (List Char × Int) × List (List Char)),
      lookupD from_ [] outE = done ++ rem →
      ((processed ++ [from_]) ++ st.2).Nodup →
      (∀ u ∈ (processed ++ [from_]) ++ st.2, lookupD u 0 st.1 ≤ 0) →
      (∀ u, keyMem u srcs = true →
        lookupD u 0 st.1 = ((lookupD u [] (get_in_edges outE)).length : Int)
          - ((processed.filter (fun w => decide (u ∈ lookupD w [] outE))).length : Int)
          - (if u ∈ done then 1 else 0)) →
      (∀ u, Relation.TransGen (hasEdge outE) u u →
        u ∉ (processed ++ [from_]) ++ st.2) →
      ((processed ++ [from_]) ++ (rem.foldl (fun st tgt =>
          if lookupD tgt 0 (decKey tgt st.1) = 0 then (decKey tgt st.1, st.2 ++ [tgt])
          else (decKey tgt st.1, st.2)) st).2).Nodup ∧
        (∀ u ∈ (processed ++ [from_]) ++ (rem.foldl (fun st tgt =>
            if lookupD tgt 0 (decKey tgt st.1) = 0 then (decKey tgt st.1, st.2 ++ [tgt])
            else (decKey tgt st.1, st.2)) st).2,
          lookupD u 0 (rem.foldl (fun st tgt =>
            if lookupD tgt 0 (decKey tgt st.1) = 0 then (decKey tgt st.1, st.2 ++ [tgt])
            else (decKey tgt st.1, st.2)) st).1 ≤ 0) ∧
        (∀ u, keyMem u srcs = true →
          lookupD u 0 (rem.foldl (fun st tgt =>
            if lookupD tgt 0 (decKey tgt st.1) = 0 then (decKey tgt st.1, st.2 ++ [tgt])
            else (decKey tgt st.1, st.2)) st).1 =
            ((lookupD u [] (get_in_edges outE)).length : Int)
              - ((processed.filter (fun w => decide (u ∈ lookupD w [] outE))).length : Int)
              - (if u ∈ done ++ rem then 1 else 0)) ∧
        (∀ u, Relation.TransGen (hasEdge outE) u u →
          u ∉ (processed ++ [from_]) ++ (rem.foldl (fun st tgt =>
            if lookupD tgt 0 (decKey tgt st.1) = 0 then (decKey tgt st.1, st.2 ++ [tgt])
            else (decKey tgt st.1, st.2)) st).2) by
    have base := main (lookupD from_ [] outE) [] (degs, queue) (by rw [List.nil_append])
      (by
        have h0 : (processed ++ [from_]) ++ queue = processed ++ from_ :: queue := by
          simp
        rw [h0]
        exact pre1)
      (by
        intro u hu
        refine pre2 u ?_
        rw [List.append_assoc] at hu
        exact hu)
      (by
        intro u hk
        rw [pre3 u hk]
        simp)
      (by
        intro u hc
        have := pre4 u hc
        rw [List.append_assoc]
        exact this)
    refine ⟨base.1, base.2.1, ?_, base.2.2.2⟩
    intro u hk
    have h3 := base.2.2.1 u hk
    rw [List.nil_append] at h3
    have hrw : ((processed ++ [from_]).filter
        (fun w => decide (u ∈ lookupD w [] outE))).length =
        (processed.filter (fun w => decide (u ∈ lookupD w [] outE))).length
          + (if u ∈ lookupD from_ [] outE then 1 else 0) := by
      rw [List.filter_append, List.length_append]
      congr 1
      by_cases hf : u ∈ lookupD from_ [] outE
      · rw [if_pos hf]
        simp [hf]
      · rw [if_neg hf]
        simp [hf]
    rw [h3, hrw]
    push_cast
    ring
  intro rem
  induction rem with
  | nil =>
    intro done st hdec j1 j2 j3 j4
    rw [List.append_nil]
    exact ⟨j1, j2, j3, j4⟩
  | cons t ts ih =>
    intro done st hdec j1 j2 j3 j4
    have htdone : t ∉ done := by
      intro hmem
      rw [hdec] at hesnd
      rcases List.nodup_append.mp hesnd with ⟨_, _, hdisj2⟩
      exact hdisj2 hmem (List.mem_cons_self _ _)
    have htes : t ∈ lookupD from_ [] outE := by
      rw [hdec]
      exact List.mem_append_right _ (List.mem_cons_self _ _)
    rw [List.foldl_cons]
    have hshape : done ++ t :: ts = (done ++ [t]) ++ ts := by simp
    rw [hshape]
    -- The degree map after this one decrement.
    have step3 : ∀ u, keyMem u srcs = true →
        lookupD u 0 (decKey t st.1) =
          ((lookupD u [] (get_in_edges outE)).length : Int)
            - ((processed.filter (fun w => decide (u ∈ lookupD w [] outE))).length : Int)
            - (if u ∈ done ++ [t] then 1 else 0) := by
      intro u hk
      rw [lookupD_decKey, j3 u hk]
      have hsplit : (if u ∈ done ++ [t] then (1 : Int) else 0) =
          (if u ∈ done then 1 else 0) + (if u = t then 1 else 0) := by
        by_cases h1 : u ∈ done
        · have h2 : u ≠ t := fun he => htdone (he ▸ h1)
          simp [h1, h2, List.mem_append, htdone]
        · by_cases h2 : u = t
          · simp [h1, h2, List.mem_append, htdone]
          · simp [h1, h2, List.mem_append, htdone]
      rw [hsplit]
      ring
    by_cases hpush : lookupD t 0 (decKey t st.1) = 0
    · -- Push branch: t is enqueued; it is fresh and not a cycle node.
      rw [if_pos hpush]
      have htfresh : t ∉ (processed ++ [from_]) ++ st.2 := by
        intro hmem
        have hle := j2 t hmem
        rw [lookupD_decKey, if_pos rfl] at hpush
        omega
      have hstep1 : ((processed ++ [from_]) ++ (st.2 ++ [t])).Nodup := by
        have hre : (processed ++ [from_]) ++ (st.2 ++ [t]) =
            ((processed ++ [from_]) ++ st.2) ++ [t] :=
          (List.append_assoc _ _ _).symm
        rw [hre, List.nodup_append]
        refine ⟨j1, List.nodup_singleton t, ?_⟩
        intro a ha hb
        rw [List.mem_singleton.mp hb] at ha
        exact htfresh ha
      have hstep2 : ∀ u ∈ (processed ++ [from_]) ++ (st.2 ++ [t]),
          lookupD u 0 (decKey t st.1) ≤ 0 := by
        intro u hu
        rcases List.mem_append.mp hu with h1 | h1
        · have := j2 u (List.mem_append_left _ h1)
          rw [lookupD_decKey]
          split <;> omega
        · rcases List.mem_append.mp h1 with h2 | h2
          · have := j2 u (List.mem_append_right _ h2)
            rw [lookupD_decKey]
            split <;> omega
          · rw [List.mem_singleton.mp h2]
            rw [lookupD_decKey, if_pos rfl] at hpush ⊢
            omega
      have hstep4 : ∀ u, Relation.TransGen (hasEdge outE) u u →
          u ∉ (processed ++ [from_]) ++ (st.2 ++ [t]) := by
        intro u hc hmem
        have hre : (processed ++ [from_]) ++ (st.2 ++ [t]) =
            ((processed ++ [from_]) ++ st.2) ++ [t] :=
          (List.append_assoc _ _ _).symm
        rw [hre] at hmem
        rcases List.mem_append.mp hmem with h1 | h1
        · exact j4 u hc h1
        · -- u = t: the cycle predecessor keeps t's degree positive.
          rw [List.mem_singleton.mp h1] at hc
          have hkt : keyMem t srcs = true := cyc_keyMem houtE hc
          have hval := step3 t hkt
          rw [if_pos (List.mem_append_right _ (List.mem_cons_self _ _))] at hval
          rw [hpush] at hval
          rcases cyc_pred hc with ⟨p, hpc, hpt⟩
          have hp_notproc : p ∉ processed := by
            intro hmem2
            exact pre4 p hpc (List.mem_append_left _ hmem2)
          have hp_ne_from : p ≠ from_ := by
            intro he
            exact pre4 p hpc (List.mem_append_right _ (he ▸ List.mem_cons_self _ _))
          -- Count: processed includers of t, from_, and p are distinct
          -- members of t's in-edge set.
          have hsub : ((processed.filter
              (fun w => decide (t ∈ lookupD w [] outE))) ++ [from_] ++ [p]) ⊆
              lookupD t [] (get_in_edges outE) := by
            intro x hx
            rw [List.append_assoc, List.mem_append] at hx
            rcases hx with h2 | h2
            · have := List.of_mem_filter h2
              exact inSet_complete (of_decide_eq_true this)
            · rcases List.mem_append.mp h2 with h3 | h3
              · rw [List.mem_singleton.mp h3]
                exact inSet_complete htes
              · rw [List.mem_singleton.mp h3]
                exact inSet_complete hpt
          have hnd2 : ((processed.filter
              (fun w => decide (t ∈ lookupD w [] outE))) ++ [from_] ++ [p]).Nodup := by
            rw [List.append_assoc, List.nodup_append]
            refine ⟨List.Nodup.filter _ hproc_nodup, ?_, ?_⟩
            · refine List.nodup_cons.mpr ⟨?_, List.nodup_singleton p⟩
              intro he
              exact hp_ne_from (List.mem_singleton.mp he).symm
            · intro a ha hb
              have hap := List.mem_of_mem_filter ha
              rcases List.mem_cons.mp hb with h3 | h3
              · rw [h3] at hap
                exact hfrom_not_proc hap
              · rw [List.mem_singleton.mp h3] at hap
                exact hp_notproc hap
          have hlen := List.Subperm.length_le (List.subperm_of_subset hnd2 hsub)
          rw [List.append_assoc, List.length_append, List.length_append] at hlen
          simp only [List.length_singleton] at hlen
          omega
      exact ih (done ++ [t]) (decKey t st.1, st.2 ++ [t])
        (by rw [hdec]; simp) hstep1 hstep2 step3 hstep4
    · -- No push: the queue is unchanged.
      rw [if_neg hpush]
      have hstep2 : ∀ u ∈ (processed ++ [from_]) ++ st.2,
          lookupD u 0 (decKey t st.1) ≤ 0 := by
        intro u hu
        rw [lookupD_decKey]
        have := j2 u hu
        split <;> omega
      exact ih (done ++ [t]) (decKey t st.1, st.2)
        (by rw [hdec]; simp) j1 hstep2 step3 j4

/-- At any point of the loop, a cycle node's degree entry is positive:
its cycle predecessor is never among the expanded names. -/
theorem cycle_deg_ge_one {srcs : List (List Char × List Char)}
    {outE : List (List Char × List (List Char))}
    (houtE : outE = srcs.map (fun p => (p.1, extract_includes p.2)))
    (processed : List (List Char)) (degs : List (List Char × Int))
    (hnd : processed.Nodup)
    (h3 : ∀ u, keyMem u srcs = true →
      lookupD u 0 degs = ((lookupD u [] (get_in_edges outE)).length : Int)
        - ((processed.filter (fun w => decide (u ∈ lookupD w [] outE))).length : Int))
    (h4 : ∀ u, Relation.TransGen (hasEdge outE) u u → u ∉ processed)
    (v : List Char) (hcv : Relation.TransGen (hasEdge outE) v v) :
    1 ≤ lookupD v 0 degs := by
  have hk : keyMem v srcs = true := cyc_keyMem houtE hcv
  rcases cyc_pred hcv with ⟨p, hpc, hpv⟩
  have hp_notproc : p ∉ processed := h4 p hpc
  have hsub : ((processed.filter
      (fun w => decide (v ∈ lookupD w [] outE))) ++ [p]) ⊆
      lookupD v [] (get_in_edges outE) := by
    intro x hx
    rcases List.mem_append.mp hx with h2 | h2
    · have := List.of_mem_filter h2
      exact inSet_complete (of_decide_eq_true this)
    · rw [List.mem_singleton.mp h2]
      exact inSet_complete hpv
  have hnd2 : ((processed.filter
      (fun w => decide (v ∈ lookupD w [] outE))) ++ [p]).Nodup := by
    rw [List.nodup_append]
    refine ⟨List.Nodup.filter _ hnd, List.nodup_singleton p, ?_⟩
    intro a ha hb
    rw [List.mem_singleton.mp hb] at ha
    exact hp_notproc (List.mem_of_mem_filter ha)
  have hlen := List.Subperm.length_le (List.subperm_of_subset hnd2 hsub)
  rw [List.length_append, List.length_singleton] at hlen
  rw [h3 v hk]
  omega

/-- Over the whole Kahn loop, a cycle node's degree entry remains
positive, whether the loop drains the queue or (never, see the fuel
bound) runs out of fuel. -/
theorem kahnGo_cycle_deg {srcs : List (List Char × List Char)}
    {outE : List (List Char × List (List Char))}
    (houtE : outE = srcs.map (fun p => (p.1, extract_includes p.2))) :
    ∀ (fuel : Nat) (queue processed : List (List Char))
      (degs : List (List Char × Int)),
      (processed ++ queue).Nodup →
      (∀ u ∈ processed ++ queue, lookupD u 0 degs ≤ 0) →
      (∀ u, keyMem u srcs = true →
        lookupD u 0 degs = ((lookupD u [] (get_in_edges outE)).length : Int)
          - ((processed.filter (fun w => decide (u ∈ lookupD w [] outE))).length : Int)) →
      (∀ u, Relation.TransGen (hasEdge outE) u u → u ∉ processed ++ queue) →
      ∀ v, Relation.TransGen (hasEdge outE) v v →
        1 ≤ lookupD v 0 (kahnGo outE fuel queue degs processed).1 := by
  intro fuel
  induction fuel with
  | zero =>
    intro queue processed degs h1 h2 h3 h4 v hcv
    rw [kahnGo]
    exact cycle_deg_ge_one houtE processed degs (List.nodup_append.mp h1).1 h3
      (fun u hc hm => h4 u hc (List.mem_append_left _ hm)) v hcv
  | succ n ih =>
    intro queue processed degs h1 h2 h3 h4 v hcv
    match queue with
    | [] =>
      rw [kahnGo]
      exact cycle_deg_ge_one houtE processed degs (List.nodup_append.mp h1).1 h3
        (fun u hc hm => h4 u hc (List.mem_append_left _ hm)) v hcv
    | from_ :: q =>
      rw [kahnGo]
      obtain ⟨p1, p2, p3, p4⟩ := kahnStep_inv houtE from_ q processed degs h1 h2 h3 h4
      exact ih _ _ _ p1 p2 p3 p4 v hcv

/-- The degree entry of a registered name is the length of its edge
set. -/
theorem lookupD_get_degrees {srcs : List (List Char × List Char)}
    {edges : List (List Char × List (List Char))} {u : List Char}
    (hk : keyMem u srcs = true) :
    lookupD u 0 (get_degrees srcs edges) = ((lookupD u [] edges).length : Int) := by
  unfold get_degrees lookupD
  rw [lookupA_map_keyfun (F := fun k => ((((lookupA k edges).getD []).length : Nat) : Int)) hk]
  rfl

/-- toposort under a reference cycle: with exactly one zero-in-degree
fragment it reports the cyclic-dependency error; otherwise the
frontier-size check reports the single-root error first. -/
theorem toposort_cycle {srcs : List (List Char × List Char)}
    {outE : List (List Char × List (List Char))}
    (houtE : outE = srcs.map (fun p => (p.1, extract_includes p.2)))
    (v : List Char) (hcv : Relation.TransGen (hasEdge outE) v v) :
    ((((get_degrees srcs (get_in_edges outE)).filter
        (fun p => p.2 = 0)).map (fun p => p.1)).length = 1 →
      toposort outE (get_degrees srcs (get_in_edges outE)) =
        Except.error Err.cyclicDependency) ∧
    ((((get_degrees srcs (get_in_edges outE)).filter
        (fun p => p.2 = 0)).map (fun p => p.1)).length ≠ 1 →
      toposort outE (get_degrees srcs (get_in_edges outE)) =
        Except.error Err.ambiguousRoot) := by
  constructor
  · intro hlen
    unfold toposort
    rw [if_neg (by rw [hlen]; exact fun h => h rfl)]
    -- Facts about frontier members.
    have hfmem : ∀ u, u ∈ ((get_degrees srcs (get_in_edges outE)).filter
        (fun p => p.2 = 0)).map (fun p => p.1) →
        keyMem u srcs = true ∧
          ((lookupD u [] (get_in_edges outE)).length : Int) = 0 := by
      intro u hu
      rcases List.mem_map.mp hu with ⟨p, hp, hp1⟩
      have hpd : p ∈ get_degrees srcs (get_in_edges outE) := List.mem_of_mem_filter hp
      have hp0 : p.2 = 0 := of_decide_eq_true (List.mem_filter.mp hp).2
      unfold get_degrees at hpd
      rcases List.mem_map.mp hpd with ⟨q, hq, hq1⟩
      have hkey : keyMem u srcs = true := by
        rw [← hp1, ← hq1]
        exact keyMem_of_mem (v := q.2) (by
          obtain ⟨a, b⟩ := q
          exact hq)
      refine ⟨hkey, ?_⟩
      have : p.2 = ((lookupD p.1 [] (get_in_edges outE)).length : Int) := by
        rw [← hq1]
      rw [← hp1, ← this, hp0]
    have hF : ∀ u, keyMem u srcs = true →
        lookupD u 0 (get_degrees srcs (get_in_edges outE)) =
          ((lookupD u [] (get_in_edges outE)).length : Int) := by
      intro u hk
      exact lookupD_get_degrees hk
    have h1 : (([] : List (List Char)) ++ ((get_degrees srcs (get_in_edges outE)).filter
        (fun p => p.2 = 0)).map (fun p => p.1)).Nodup := by
      rw [List.nil_append]
      rcases List.length_eq_one.mp hlen with ⟨a, ha⟩
      rw [ha]
      exact List.nodup_singleton a
    have h2 : ∀ u ∈ ([] : List (List Char)) ++
        ((get_degrees srcs (get_in_edges outE)).filter
          (fun p => p.2 = 0)).map (fun p => p.1),
        lookupD u 0 (get_degrees srcs (get_in_edges outE)) ≤ 0 := by
      intro u hu
      rw [List.nil_append] at hu
      rcases hfmem u hu with ⟨hk, hz⟩
      rw [hF u hk, hz]
    have h3 : ∀ u, keyMem u srcs = true →
        lookupD u 0 (get_degrees srcs (get_in_edges outE)) =
          ((lookupD u [] (get_in_edges outE)).length : Int)
            - ((([] : List (List Char)).filter
              (fun w => decide (u ∈ lookupD w [] outE))).length : Int) := by
      intro u hk
      rw [hF u hk]
      simp
    have h4 : ∀ u, Relation.TransGen (hasEdge outE) u u →
        u ∉ ([] : List (List Char)) ++
          ((get_degrees srcs (get_in_edges outE)).filter
            (fun p => p.2 = 0)).map (fun p => p.1) := by
      intro u hc hmem
      rw [List.nil_append] at hmem
      rcases hfmem u hmem with ⟨_, hz⟩
      have hn : (lookupD u [] (get_in_edges outE)).length = 0 := by
        exact_mod_cast hz
      rcases cyc_pred hc with ⟨p, _, hpu⟩
      have := inSet_complete hpu
      rw [List.length_eq_zero.mp hn] at this
      cases this
    have hdeg := kahnGo_cycle_deg houtE
      ((get_degrees srcs (get_in_edges outE)).length + 1)
      (((get_degrees srcs (get_in_edges outE)).filter
        (fun p => p.2 = 0)).map (fun p => p.1)) []
      (get_degrees srcs (get_in_edges outE)) h1 h2 h3 h4 v hcv
    have hany : (kahnGo outE ((get_degrees srcs (get_in_edges outE)).length + 1)
        (((get_degrees srcs (get_in_edges outE)).filter
          (fun p => p.2 = 0)).map (fun p => p.1))
        (get_degrees srcs (get_in_edges outE)) []).1.any
        (fun p => p.2 ≠ 0) = true := by
      unfold lookupD at hdeg
      cases hl : lookupA v (kahnGo outE ((get_degrees srcs (get_in_edges outE)).length + 1)
          (((get_degrees srcs (get_in_edges outE)).filter
            (fun p => p.2 = 0)).map (fun p => p.1))
          (get_degrees srcs (get_in_edges outE)) []).1 with
      | none =>
        rw [hl] at hdeg
        simp at hdeg
      | some val =>
        rw [hl] at hdeg
        rw [List.any_eq_true]
        refine ⟨(v, val), lookupA_mem hl, ?_⟩
        simp only [Option.getD_some] at hdeg
        simp
        omega
      
    rw [if_pos hany]
  · intro hlen
    unfold toposort
    rw [if_pos hlen]

/-- C3 amended: a fragment set whose include graph contains a reference
cycle never merges: when the graph additionally has exactly one
zero-in-degree fragment, merge()/build() fail with the CyclicDependency
error (whatever the cycle's length); when the cycle leaves no fragment —
or several fragments — with zero incoming references, the frontier-size
check fails first with AmbiguousRoot. -/
theorem cycle_merge_always_fails
    (srcs : List (List Char × List Char))
    (outE : List (List Char × List (List Char)))
    (hout : get_out_edges srcs = Except.ok outE)
    (v : List Char) (hcv : Relation.TransGen (hasEdge outE) v v) :
    ((glsl_include.merge srcs).2 = Except.error Err.cyclicDependency ∨
      (glsl_include.merge srcs).2 = Except.error Err.ambiguousRoot) ∧
    ((((get_degrees srcs (get_in_edges outE)).filter
        (fun p => p.2 = 0)).map (fun p => p.1)).length = 1 →
      (glsl_include.merge srcs).2 = Except.error Err.cyclicDependency ∧
        (glsl_builder.build { srcs_ := srcs }).2 =
          Except.error Err.cyclicDependency) := by
  have houtE : outE = srcs.map (fun p => (p.1, extract_includes p.2)) :=
    (get_out_edges_go_ok hout).1
  have tc := toposort_cycle houtE v hcv
  have hmerge : ∀ e, toposort outE (get_degrees srcs (get_in_edges outE)) =
      Except.error e → (glsl_include.merge srcs).2 = Except.error e := by
    intro e ht
    unfold glsl_include.merge
    rw [hout]
    dsimp only
    rw [ht]
  have hbuild : ∀ e, toposort outE (get_degrees srcs (get_in_edges outE)) =
      Except.error e →
      (glsl_builder.build { srcs_ := srcs }).2 = Except.error e := by
    intro e ht
    rw [build_snd]
    unfold buildResult
    show (match get_out_edges srcs with
      | Except.error e => Except.error e
      | Except.ok outE =>
        match toposort outE (get_degrees srcs (get_in_edges outE)) with
        | Except.error e => Except.error e
        | Except.ok sorted =>
          Except.ok (erase_header_guard
            (substitute (srcs.map (fun p : List Char × List Char =>
              (p.1, has_pragma_once p.2))) outE sorted srcs).content)) = _
    rw [hout]
    dsimp only
    rw [ht]
  constructor
  · by_cases hlen : (((get_degrees srcs (get_in_edges outE)).filter
        (fun p => p.2 = 0)).map (fun p => p.1)).length = 1
    · exact Or.inl (hmerge _ (tc.1 hlen))
    · exact Or.inr (hmerge _ (tc.2 hlen))
  · intro hlen
    exact ⟨hmerge _ (tc.1 hlen), hbuild _ (tc.1 hlen)⟩

/-- Witness for the C3 amended theorem: a unique root whose dependencies
form a two-cycle, failing with CyclicDependency. -/
theorem cycle_merge_always_fails_witness :
    (glsl_include.merge cexCycleRoot).2 = Except.error Err.cyclicDependency ∧
      (glsl_builder.build { srcs_ := cexCycleRoot }).2 =
        Except.error Err.cyclicDependency :=
  (cycle_merge_always_fails cexCycleRoot cexCycleRootOutE (by rfl) "A".data
    (Relation.TransGen.head (b := "B".data)
      (show "B".data ∈ lookupD "A".data [] cexCycleRootOutE by decide)
      (Relation.TransGen.single
        (show "A".data ∈ lookupD "B".data [] cexCycleRootOutE by decide)))).2
    (by rfl)

/-! ## C1: the include-once replace event happens exactly once -/

/-- With duplicate-free keys, membership determines the lookup. -/
theorem lookupA_mem_nodup {α : Type} {k : List Char} {v : α} :
    ∀ {l : List (List Char × α)}, (l.map Prod.fst).Nodup → (k, v) ∈ l →
      lookupA k l = some v := by
  intro l
  induction l with
  | nil => intro _ h; cases h
  | cons p ps ih =>
    intro hnd h
    rw [List.map_cons, List.nodup_cons] at hnd
    rcases List.mem_cons.mp h with h1 | h1
    · rw [← h1, lookupA, if_pos rfl]
    · rw [lookupA]
      have hne : p.1 ≠ k := by
        intro he
        refine hnd.1 ?_
        rw [he]
        exact List.mem_map.mpr ⟨(k, v), h1, rfl⟩
      rw [if_neg hne]
      exact ih hnd.2 h1

/-- Keys survive the whole Kahn loop. -/
theorem kahnGo_keyMem {outE : List (List Char × List (List Char))}
    {u : List Char} :
    ∀ (fuel : Nat) (queue sorted : List (List Char))
      (degs : List (List Char × Int)), keyMem u degs = true →
      keyMem u (kahnGo outE fuel queue degs sorted).1 = true := by
  have hstep : ∀ (from_ : List Char) (degs : List (List Char × Int))
      (queue : List (List Char)), keyMem u degs = true →
      keyMem u (kahnStep outE from_ degs queue).1 = true := by
    intro from_ degs queue h
    unfold kahnStep
    generalize lookupD from_ [] outE = es
    induction es generalizing degs queue with
    | nil => exact h
    | cons t ts ih =>
      rw [List.foldl_cons]
      by_cases hz : lookupD t 0 (decKey t degs) = 0
      · rw [if_pos hz]
        exact ih _ _ (keyMem_decKey t degs h)
      · rw [if_neg hz]
        exact ih _ _ (keyMem_decKey t degs h)
  intro fuel
  induction fuel with
  | zero => intro queue sorted degs h; exact h
  | succ n ih =>
    intro queue sorted degs h
    match queue with
    | [] => exact h
    | f :: q =>
      rw [kahnGo]
      exact ih _ _ _ (hstep f degs q h)

/-- The degree bookkeeping invariant holds for the final state of the
Kahn loop, with the emitted order as the expanded list. -/
theorem kahnGo_final_D {srcs : List (List Char × List Char)}
    {outE : List (List Char × List (List Char))}
    (houtE : outE = srcs.map (fun p => (p.1, extract_includes p.2))) :
    ∀ (fuel : Nat) (queue processed : List (List Char))
      (degs : List (List Char × Int)),
      (processed ++ queue).Nodup →
      (∀ u ∈ processed ++ queue, lookupD u 0 degs ≤ 0) →
      (∀ u, keyMem u srcs = true →
        lookupD u 0 degs = ((lookupD u [] (get_in_edges outE)).length : Int)
          - ((processed.filter (fun w => decide (u ∈ lookupD w [] outE))).length : Int)) →
      (∀ u, Relation.TransGen (hasEdge outE) u u → u ∉ processed ++ queue) →
      ((kahnGo outE fuel queue degs processed).2).Nodup ∧
        (∀ u, keyMem u srcs = true →
          lookupD u 0 (kahnGo outE fuel queue degs processed).1 =
            ((lookupD u [] (get_in_edges outE)).length : Int)
              - (((kahnGo outE fuel queue degs processed).2).filter
                (fun w => decide (u ∈ lookupD w [] outE))).length) := by
  intro fuel
  induction fuel with
  | zero =>
    intro queue processed degs h1 h2 h3 h4
    rw [kahnGo]
    exact ⟨(List.nodup_append.mp h1).1, h3⟩
  | succ n ih =>
    intro queue processed degs h1 h2 h3 h4
    match queue with
    | [] =>
      rw [kahnGo]
      exact ⟨(List.nodup_append.mp h1).1, h3⟩
    | from_ :: q =>
      rw [kahnGo]
      obtain ⟨p1, p2, p3, p4⟩ := kahnStep_inv houtE from_ q processed degs h1 h2 h3 h4
      exact ih _ _ _ p1 p2 p3 p4

/-- Inversion of a successful toposort: the frontier had exactly one
name, the loop drained with all degrees zero, and the emitted order is
the loop's push order. -/
theorem toposort_ok_inv {outE : List (List Char × List (List Char))}
    {inDegs : List (List Char × Int)} {sorted : List (List Char)}
    (h : toposort outE inDegs = Except.ok sorted) :
    ((inDegs.filter (fun p => p.2 = 0)).map (fun p => p.1)).length = 1 ∧
      (kahnGo outE (inDegs.length + 1)
        ((inDegs.filter (fun p => p.2 = 0)).map (fun p => p.1)) inDegs []).1.any
        (fun p => p.2 ≠ 0) = false ∧
      sorted = (kahnGo outE (inDegs.length + 1)
        ((inDegs.filter (fun p => p.2 = 0)).map (fun p => p.1)) inDegs []).2 := by
  unfold toposort at h
  by_cases hlen : ((inDegs.filter (fun p => p.2 = 0)).map (fun p => p.1)).length ≠ 1
  · rw [if_pos hlen] at h
    cases h
  · rw [if_neg hlen] at h
    by_cases hany : (kahnGo outE (inDegs.length + 1)
        ((inDegs.filter (fun p => p.2 = 0)).map (fun p => p.1)) inDegs []).1.any
        (fun p => p.2 ≠ 0) = true
    · rw [if_pos hany] at h
      cases h
    · rw [if_neg hany] at h
      injection h with h
      exact ⟨Decidable.not_not.mp hlen, Bool.not_eq_true _ ▸ eq_false_of_ne_true hany, h.symm⟩

/-- Frontier members are registered and have degree entry zero. -/
theorem frontier_deg {srcs : List (List Char × List Char)}
    {edgesIn : List (List Char × List (List Char))} {u : List Char}
    (hu : u ∈ ((get_degrees srcs edgesIn).filter
      (fun p => p.2 = 0)).map (fun p => p.1)) :
    keyMem u srcs = true ∧ lookupD u 0 (get_degrees srcs edgesIn) = 0 := by
  rcases List.mem_map.mp hu with ⟨p, hp, hp1⟩
  have hpd : p ∈ get_degrees srcs edgesIn := List.mem_of_mem_filter hp
  have hp0 : p.2 = 0 := of_decide_eq_true (List.mem_filter.mp hp).2
  unfold get_degrees at hpd
  rcases List.mem_map.mp hpd with ⟨q, hq, hq1⟩
  have hkey : keyMem u srcs = true := by
    rw [← hp1, ← hq1]
    exact keyMem_of_mem (v := q.2) (by
      obtain ⟨a, b⟩ := q
      exact hq)
  refine ⟨hkey, ?_⟩
  rw [lookupD_get_degrees hkey]
  have hval : p.2 = ((lookupD p.1 [] edgesIn).length : Int) := by
    rw [← hq1]
  rw [← hp1, ← hval, hp0]

/-- If toposort succeeds, every fragment that references F through the
out-edge map appears in the emitted order: F's final degree is zero, so
every one of its includers was expanded. -/
theorem referencing_fragment_in_sorted {srcs : List (List Char × List Char)}
    {outE : List (List Char × List (List Char))} {sorted : List (List Char)}
    (hout : get_out_edges srcs = Except.ok outE)
    (htopo : toposort outE (get_degrees srcs (get_in_edges outE)) = Except.ok sorted)
    {F g1 : List Char} (hkF : keyMem F srcs = true)
    (hg1in : F ∈ lookupD g1 [] outE) :
    g1 ∈ sorted := by
  have houtE : outE = srcs.map (fun p => (p.1, extract_includes p.2)) :=
    (get_out_edges_go_ok hout).1
  have hnocyc : ∀ u, ¬ Relation.TransGen (hasEdge outE) u u := by
    intro u hc
    have tc := toposort_cycle houtE u hc
    by_cases hlen : (((get_degrees srcs (get_in_edges outE)).filter
        (fun p => p.2 = 0)).map (fun p => p.1)).length = 1
    · rw [tc.1 hlen] at htopo
      cases htopo
    · rw [tc.2 hlen] at htopo
      cases htopo
  obtain ⟨hlen, hany, hsorted⟩ := toposort_ok_inv htopo
  have h1 : (([] : List (List Char)) ++ ((get_degrees srcs (get_in_edges outE)).filter
      (fun p => p.2 = 0)).map (fun p => p.1)).Nodup := by
    rw [List.nil_append]
    rcases List.length_eq_one.mp hlen with ⟨a, ha⟩
    rw [ha]
    exact List.nodup_singleton a
  have h2 : ∀ u ∈ ([] : List (List Char)) ++
      ((get_degrees srcs (get_in_edges outE)).filter
        (fun p => p.2 = 0)).map (fun p => p.1),
      lookupD u 0 (get_degrees srcs (get_in_edges outE)) ≤ 0 := by
    intro u hu
    rw [List.nil_append] at hu
    rw [(frontier_deg hu).2]
  have h3 : ∀ u, keyMem u srcs = true →
      lookupD u 0 (get_degrees srcs (get_in_edges outE)) =
        ((lookupD u [] (get_in_edges outE)).length : Int)
          - ((([] : List (List Char)).filter
            (fun w => decide (u ∈ lookupD w [] outE))).length : Int) := by
    intro u hk
    rw [lookupD_get_degrees hk]
    simp
  have h4 : ∀ u, Relation.TransGen (hasEdge outE) u u →
      u ∉ ([] : List (List Char)) ++
        ((get_degrees srcs (get_in_edges outE)).filter
          (fun p => p.2 = 0)).map (fun p => p.1) :=
    fun u hc => absurd hc (hnocyc u)
  obtain ⟨hndK, hD⟩ := kahnGo_final_D houtE
    ((get_degrees srcs (get_in_edges outE)).length + 1)
    (((get_degrees srcs (get_in_edges outE)).filter
      (fun p => p.2 = 0)).map (fun p => p.1)) []
    (get_degrees srcs (get_in_edges outE)) h1 h2 h3 h4
  -- F's final degree entry exists and is zero.
  have hkm : keyMem F (kahnGo outE ((get_degrees srcs (get_in_edges outE)).length + 1)
      (((get_degrees srcs (get_in_edges outE)).filter
        (fun p => p.2 = 0)).map (fun p => p.1))
      (get_degrees srcs (get_in_edges outE)) []).1 = true := by
    refine kahnGo_keyMem _ _ _ _ ?_
    show keyMem F (srcs.map (fun p =>
      (p.1, ((lookupD p.1 [] (get_in_edges outE)).length : Int)))) = true
    rw [keyMem_map]
    exact hkF
  rcases lookupA_of_keyMem hkm with ⟨val, hval⟩
  have hval0 : val = 0 := by
    by_contra hne
    have : (kahnGo outE ((get_degrees srcs (get_in_edges outE)).length + 1)
        (((get_degrees srcs (get_in_edges outE)).filter
          (fun p => p.2 = 0)).map (fun p => p.1))
        (get_degrees srcs (get_in_edges outE)) []).1.any
        (fun p => p.2 ≠ 0) = true :=
      List.any_eq_true.mpr ⟨(F, val), lookupA_mem hval, by simp [hne]⟩
    rw [this] at hany
    cases hany
  have hD_F := hD F hkF
  have hfd : lookupD F 0 (kahnGo outE ((get_degrees srcs (get_in_edges outE)).length + 1)
      (((get_degrees srcs (get_in_edges outE)).filter
        (fun p => p.2 = 0)).map (fun p => p.1))
      (get_degrees srcs (get_in_edges outE)) []).1 = 0 := by
    unfold lookupD
    rw [hval, hval0]
    rfl
  rw [hfd] at hD_F
  -- Pigeonhole: the filtered includers exhaust F's in-edge set.
  have hklen : (((kahnGo outE ((get_degrees srcs (get_in_edges outE)).length + 1)
      (((get_degrees srcs (get_in_edges outE)).filter
        (fun p => p.2 = 0)).map (fun p => p.1))
      (get_degrees srcs (get_in_edges outE)) []).2).filter
      (fun w => decide (F ∈ lookupD w [] outE))).length =
      (lookupD F [] (get_in_edges outE)).length := by
    omega
  have hsubK : (((kahnGo outE ((get_degrees srcs (get_in_edges outE)).length + 1)
      (((get_degrees srcs (get_in_edges outE)).filter
        (fun p => p.2 = 0)).map (fun p => p.1))
      (get_degrees srcs (get_in_edges outE)) []).2).filter
      (fun w => decide (F ∈ lookupD w [] outE))) ⊆
      lookupD F [] (get_in_edges outE) := by
    intro x hx
    have := List.mem_filter.mp hx
    exact inSet_complete (of_decide_eq_true this.2)
  have hperm := List.Subperm.perm_of_length_le
    (List.subperm_of_subset (List.Nodup.filter _ hndK) hsubK)
    (le_of_eq hklen.symm)
  have hg1F : g1 ∈ lookupD F [] (get_in_edges outE) := inSet_complete hg1in
  have hg1filter := (hperm.mem_iff).mpr hg1F
  rw [hsorted]
  exact List.mem_of_mem_filter hg1filter

/-- One replace-loop step keeps the F-event count equal to the visited
flag of F, when F is include-once. -/
theorem replStep_V {single : List (List Char × Bool)} {F : List Char}
    (hsingleF : lookupD F false single = true) (name : List Char)
    (st : SubstState) (incl : List Char)
    (hV : ((st.events.filter (fun ev => ev.2 = F)).length) =
      (if lookupD F false st.visited then 1 else 0)) :
    (((replStep single name st incl).events.filter (fun ev => ev.2 = F)).length) =
      (if lookupD F false (replStep single name st incl).visited then 1 else 0) := by
  unfold replStep
  by_cases hc : (lookupD incl false single && lookupD incl false st.visited) = true
  · rw [if_pos hc]
    exact hV
  · rw [if_neg hc]
    by_cases hf : incl = F
    · subst hf
      have hvis : lookupD incl false st.visited = false := by
        cases hv : lookupD incl false st.visited with
        | false => rfl
        | true => exact absurd (by rw [hsingleF, hv]; rfl) hc
      rw [hvis, if_neg (by simp)] at hV
      simp only [List.filter_append, List.length_append]
      rw [hV]
      have h1 : lookupD incl false (setKey incl true st.visited) = true := by
        unfold lookupD
        rw [lookupA_setKey_self]
        rfl
      rw [h1, if_pos rfl]
      simp
    · simp only [List.filter_append, List.length_append]
      have h1 : lookupD F false (setKey incl true st.visited) =
          lookupD F false st.visited := by
        unfold lookupD
        rw [lookupA_setKey_ne _ _ (fun h => hf h.symm)]
      rw [h1]
      have h2 : (([(name, incl)] : List (List Char × List Char)).filter
          (fun ev => ev.2 = F)).length = 0 := by
        simp [hf]
      rw [h2, hV]
      omega

/-- The visited flag of F is monotone through a replace-loop step. -/
theorem replStep_mono {single : List (List Char × Bool)} {F : List Char}
    (name : List Char) (st : SubstState) (incl : List Char)
    (h : lookupD F false st.visited = true) :
    lookupD F false (replStep single name st incl).visited = true := by
  unfold replStep
  split
  · exact h
  · by_cases hf : incl = F
    · subst hf
      show lookupD incl false (setKey incl true st.visited) = true
      unfold lookupD
      rw [lookupA_setKey_self]
      rfl
    · show lookupD F false (setKey incl true st.visited) = true
      unfold lookupD
      unfold lookupD at h
      rw [lookupA_setKey_ne _ _ (fun hh => hf hh.symm)]
      exact h

/-- After the replace loop touches F, its visited flag is set. -/
theorem replStep_sets_F {single : List (List Char × Bool)} {F : List Char}
    (name : List Char) (st : SubstState) :
    lookupD F false (replStep single name st F).visited = true := by
  unfold replStep
  split
  · rename_i hc
    exact (Bool.and_eq_true _ _ |>.mp hc).2
  · show lookupD F false (setKey F true st.visited) = true
    unfold lookupD
    rw [lookupA_setKey_self]
    rfl

/-- The replace loop over an include list: the F-invariant is preserved,
the visited flag is monotone, and it ends set when F is in the list. -/
theorem replFold_V {single : List (List Char × Bool)} {F : List Char}
    (hsingleF : lookupD F false single = true) (name : List Char) :
    ∀ (included : List (List Char)) (st : SubstState),
      (((st.events.filter (fun ev => ev.2 = F)).length) =
        (if lookupD F false st.visited then 1 else 0)) →
      ((((included.foldl (replStep single name) st).events.filter
          (fun ev => ev.2 = F)).length) =
        (if lookupD F false (included.foldl (replStep single name) st).visited
          then 1 else 0)) ∧
      (lookupD F false st.visited = true →
        lookupD F false (included.foldl (replStep single name) st).visited = true) ∧
      (F ∈ included →
        lookupD F false (included.foldl (replStep single name) st).visited = true) := by
  intro included
  induction included with
  | nil =>
    intro st hV
    exact ⟨hV, fun h => h, fun h => absurd h (List.not_mem_nil _)⟩
  | cons i is ih =>
    intro st hV
    rw [List.foldl_cons]
    obtain ⟨a1, a2, a3⟩ := ih (replStep single name st i)
      (replStep_V hsingleF name st i hV)
    refine ⟨a1, ?_, ?_⟩
    · intro h
      exact a2 (replStep_mono name st i h)
    · intro hmem
      rcases List.mem_cons.mp hmem with h1 | h1
      · subst h1
        exact a2 (replStep_sets_F name st)
      · exact a3 h1

/-- The delete loop changes neither events nor visited flags. -/
theorem delFold_ev :
    ∀ (included : List (List Char)) (st : SubstState),
      (included.foldl delStep st).events = st.events ∧
        (included.foldl delStep st).visited = st.visited := by
  intro included
  induction included with
  | nil => intro st; exact ⟨rfl, rfl⟩
  | cons i is ih =>
    intro st
    rw [List.foldl_cons]
    exact ih (delStep st i)

/-- Processing one fragment preserves the F-invariant, is monotone in
the visited flag, and sets it when the fragment references F. -/
theorem substFrag_V {single : List (List Char × Bool)}
    {outE : List (List Char × List (List Char))} {F : List Char}
    (hsingleF : lookupD F false single = true) (name : List Char)
    (st : SubstState)
    (hV : ((st.events.filter (fun ev => ev.2 = F)).length) =
      (if lookupD F false st.visited then 1 else 0)) :
    ((((substFrag single outE st name).events.filter
        (fun ev => ev.2 = F)).length) =
      (if lookupD F false (substFrag single outE st name).visited
        then 1 else 0)) ∧
    (lookupD F false st.visited = true →
      lookupD F false (substFrag single outE st name).visited = true) ∧
    (F ∈ lookupD name [] outE →
      lookupD F false (substFrag single outE st name).visited = true) := by
  unfold substFrag
  dsimp only
  obtain ⟨d1, d2⟩ := delFold_ev (lookupD name [] outE)
    ((lookupD name [] outE).foldl (replStep single name)
      { st with
          srcs := (getOrInsert name [] st.srcs).2
          content := (getOrInsert name [] st.srcs).1 })
  obtain ⟨a1, a2, a3⟩ := replFold_V hsingleF name (lookupD name [] outE)
    { st with
        srcs := (getOrInsert name [] st.srcs).2
        content := (getOrInsert name [] st.srcs).1 } hV
  refine ⟨?_, ?_, ?_⟩
  · rw [d1, d2]
    exact a1
  · intro h
    rw [d2]
    exact a2 h
  · intro h
    rw [d2]
    exact a3 h

/-- Over the whole substitution walk, the number of recorded F-replace
events equals F's visited flag, and the flag ends set when some
processed fragment references F. -/
theorem substWalk_V {single : List (List Char × Bool)}
    {outE : List (List Char × List (List Char))} {F : List Char}
    (hsingleF : lookupD F false single = true) :
    ∀ (names : List (List Char)) (st : SubstState),
      (((st.events.filter (fun ev => ev.2 = F)).length) =
        (if lookupD F false st.visited then 1 else 0)) →
      ((((names.foldl (substFrag single outE) st).events.filter
          (fun ev => ev.2 = F)).length) =
        (if lookupD F false (names.foldl (substFrag single outE) st).visited
          then 1 else 0)) ∧
      (lookupD F false st.visited = true →
        lookupD F false (names.foldl (substFrag single outE) st).visited = true) ∧
      ((∃ g ∈ names, F ∈ lookupD g [] outE) →
        lookupD F false (names.foldl (substFrag single outE) st).visited = true) := by
  intro names
  induction names with
  | nil =>
    intro st hV
    refine ⟨hV, fun h => h, ?_⟩
    rintro ⟨g, hg, _⟩
    cases hg
  | cons n ns ih =>
    intro st hV
    rw [List.foldl_cons]
    obtain ⟨b1, b2, b3⟩ := substFrag_V hsingleF n st hV
    obtain ⟨a1, a2, a3⟩ := ih (substFrag single outE st n) b1
    refine ⟨a1, fun h => a2 (b2 h), ?_⟩
    rintro ⟨g, hg, hgF⟩
    rcases List.mem_cons.mp hg with h1 | h1
    · subst h1
      exact a2 (b3 hgF)
    · exact a3 ⟨g, h1, hgF⟩

/-- Keys of a value-mapped registry. -/
theorem map_keyfun_fst {α : Type} (f : List Char × List Char → α)
    (srcs : List (List Char × List Char)) :
    (srcs.map (fun p => (p.1, f p))).map Prod.fst = srcs.map Prod.fst := by
  rw [List.map_map]
  rfl

/-- C1 amended: when the merge pipeline succeeds and F is flagged
include-once, with two (or more) distinct fragments referencing F, the
substitution engine executes the replace-first-occurrence regex call for
F exactly once during the whole walk; every other fragment's F
directives see only the skip branch and the deleting pass.  (The claim's
original conclusion — that F's registered content appears exactly once
as a substring of the output — fails, see the counterexample.) -/
theorem include_once_substituted_exactly_once
    (srcs : List (List Char × List Char))
    (outE : List (List Char × List (List Char))) (sorted : List (List Char))
    (hout : get_out_edges srcs = Except.ok outE)
    (htopo : toposort outE (get_degrees srcs (get_in_edges outE)) = Except.ok sorted)
    (F cF g1 c1 g2 c2 : List Char)
    (hF : (F, cF) ∈ srcs) (hsingle : has_pragma_once_ml cF = true)
    (hg1 : (g1, c1) ∈ srcs) (href1 : F ∈ extract_includes c1)
    (hg2 : (g2, c2) ∈ srcs) (href2 : F ∈ extract_includes c2)
    (hne : g1 ≠ g2)
    (hnd : (srcs.map Prod.fst).Nodup) :
    (((substitute (glsl_include.is_single_include srcs) outE sorted srcs).events).filter
        (fun ev => ev.2 = F)).length = 1 ∧
      (glsl_include.merge srcs).2 = Except.ok (erase_header_guard
        (substitute (glsl_include.is_single_include srcs) outE sorted srcs).content) := by
  have houtE : outE = srcs.map (fun p => (p.1, extract_includes p.2)) :=
    (get_out_edges_go_ok hout).1
  have hndm : ∀ (α : Type) (f : List Char × List Char → α),
      ((srcs.map (fun p => (p.1, f p))).map Prod.fst).Nodup := by
    intro α f
    rw [map_keyfun_fst]
    exact hnd
  have hsingleF : lookupD F false (glsl_include.is_single_include srcs) = true := by
    unfold glsl_include.is_single_include lookupD
    rw [lookupA_mem_nodup (hndm Bool (fun p => has_pragma_once_ml p.2))
      (List.mem_map.mpr ⟨(F, cF), hF, rfl⟩)]
    rw [Option.getD_some]
    exact hsingle
  have hg1edge : F ∈ lookupD g1 [] outE := by
    unfold lookupD
    rw [houtE, lookupA_mem_nodup (hndm (List (List Char)) (fun p => extract_includes p.2))
      (List.mem_map.mpr ⟨(g1, c1), hg1, rfl⟩)]
    rw [Option.getD_some]
    exact href1
  have hkF : keyMem F srcs = true := keyMem_of_mem hF
  have hg1sorted : g1 ∈ sorted :=
    referencing_fragment_in_sorted hout htopo hkF hg1edge
  constructor
  · unfold substitute
    obtain ⟨a1, _, a3⟩ := substWalk_V hsingleF sorted.reverse
      { srcs := srcs
        visited := []
        modified := []
        content := []
        events := [] } (by rfl)
    rw [a1, a3 ⟨g1, List.mem_reverse.mpr hg1sorted, hg1edge⟩]
    rfl
  · unfold glsl_include.merge
    rw [hout]
    dsimp only
    rw [htopo]

/-- Witness for the C1 amended theorem at the concrete include-once
fragment set. -/
theorem include_once_substituted_exactly_once_witness :
    (((substitute (glsl_include.is_single_include cexOnce)
        [("root".data, ["A".data, "B".data]), ("A".data, ["F".data]),
          ("B".data, ["F".data]), ("F".data, [])]
        ["root".data, "A".data, "B".data, "F".data] cexOnce).events).filter
      (fun ev => ev.2 = "F".data)).length = 1 ∧
    (glsl_include.merge cexOnce).2 = Except.ok (erase_header_guard
      (substitute (glsl_include.is_single_include cexOnce)
        [("root".data, ["A".data, "B".data]), ("A".data, ["F".data]),
          ("B".data, ["F".data]), ("F".data, [])]
        ["root".data, "A".data, "B".data, "F".data] cexOnce).content) :=
  include_once_substituted_exactly_once cexOnce
    [("root".data, ["A".data, "B".data]), ("A".data, ["F".data]),
      ("B".data, ["F".data]), ("F".data, [])]
    ["root".data, "A".data, "B".data, "F".data]
    (by rfl) (by rfl)
    "F".data "#pragma once\nX\n".data "A".data "#include <F>\n".data
    "B".data "#include <F>\n".data
    (by decide) (by rfl) (by decide) (by decide) (by decide) (by decide)
    (by decide) (by decide)

namespace mkr

theorem plainLine_dirLine (g : List Char) : plainLine (dirLine g) = false := rfl

theorem matchLit_self : ∀ (l t : List Char), matchLit l (l ++ t) = some t
  | [], _ => rfl
  | c :: cs, t => by simp [matchLit, matchLit_self cs t]

theorem munchWs_nonWsp {c : Char} (h : isWsp c = false) (t : List Char) :
    munchWs (c :: t) = ([], c :: t) := by
  simp [munchWs, List.takeWhile_cons, List.dropWhile_cons, h]

theorem munchWs_lf_nonWsp {c : Char} (h : isWsp c = false) (t : List Char) :
    munchWs ('\n' :: c :: t) = (['\n'], c :: t) := by
  simp +decide [munchWs, List.takeWhile_cons, List.dropWhile_cons, h]

theorem munchWs_lf_nil : munchWs ['\n'] = (['\n'], []) := by decide

theorem munchWs1_space_lt (t : List Char) :
    munchWs1 (' ' :: '<' :: t) = some ([' '], '<' :: t) := by
  simp +decide [munchWs1, List.takeWhile_cons, List.dropWhile_cons]

theorem matchNamePat_literal (g : List Char) (hg : goodName g = true) (s : List Char) :
    matchNamePat g (g ++ s) = some (g, s) := by
  induction g with
  | nil => rfl
  | cons p ps ih =>
    rw [goodName, List.all_cons, Bool.and_eq_true, Bool.and_eq_true] at hg
    have hp : ¬(p = '.') := by simpa using hg.1.1
    have : matchNamePat (p :: ps) (p :: (ps ++ s)) =
        (matchNamePat ps (ps ++ s)).map (fun pr => (p :: pr.1, pr.2)) := by
      rw [matchNamePat]
      simp [hp]
    rw [List.cons_append, this, ih (by rw [goodName]; exact hg.2)]
    rfl

theorem applyFmt_cons_ne (p m r : List Char) {c : Char} (hc : ¬(c = '$')) (t : List Char) :
    applyFmt p m r (c :: t) = c :: applyFmt p m r t := by
  rw [applyFmt.eq_def]
  split <;> simp_all

end mkr

namespace mkr

theorem applyFmt_no_dollar (p m r : List Char) (T : List Char)
    (h : T.all (fun c => !(c = '$')) = true) : applyFmt p m r T = T := by
  induction T with
  | nil => rfl
  | cons c t ih =>
    rw [List.all_cons, Bool.and_eq_true] at h
    have hc : ¬(c = '$') := by simpa using h.1
    rw [applyFmt_cons_ne p m r hc, ih h.2]

theorem matchIncl_at (g : List Char) (hg : goodName g = true) (w s : List Char)
    (hmw : munchWs (w ++ "#include <".data ++ g ++ '>' :: s) =
      (w, "#include <".data ++ g ++ '>' :: s)) :
    matchIncl g (w ++ "#include <".data ++ g ++ '>' :: s) = some (w ++ dirLine g, s) := by
  unfold matchIncl
  rw [hmw]
  dsimp only
  rw [show (['#','i','n','c','l','u','d','e',' ','<'] ++ g ++ '>' :: s : List Char) =
    ['#','i','n','c','l','u','d','e'] ++ (' ' :: '<' :: (g ++ '>' :: s)) from rfl]
  rw [matchLit_self]
  dsimp only [Bind.bind, Option.bind]
  rw [munchWs1_space_lt]
  dsimp only [Bind.bind, Option.bind]
  rw [show ('<' :: (g ++ '>' :: s)) = ['<'] ++ (g ++ '>' :: s) from rfl]
  rw [matchLit_self]
  dsimp only [Bind.bind, Option.bind]
  rw [matchNamePat_literal g hg]
  dsimp only [Bind.bind, Option.bind]
  rw [show ('>' :: s) = ['>'] ++ s from rfl]
  rw [matchLit_self]
  dsimp only [Bind.bind, Option.bind]
  simp [dirLine, show "#include <".data = ['#','i','n','c','l','u','d','e',' ','<'] from rfl,
    show ">".data = ['>'] from rfl, List.append_assoc]

end mkr

namespace mkr

theorem matchInclDel_at (g : List Char) (hg : goodName g = true) (w s : List Char)
    (hmw : munchWs (w ++ "#include <".data ++ g ++ '>' :: s) =
      (w, "#include <".data ++ g ++ '>' :: s))
    (w3 r2 : List Char) (hmw2 : munchWs s = (w3, r2)) :
    matchInclDel g (w ++ "#include <".data ++ g ++ '>' :: s) =
      some ((w ++ dirLine g) ++ w3, r2) := by
  unfold matchInclDel
  rw [matchIncl_at g hg w s hmw]
  dsimp only [Bind.bind, Option.bind]
  rw [hmw2]

theorem matchIncl_nil (g : List Char) : matchIncl g [] = none := rfl

theorem matchInclDel_none {g : List Char} {s : List Char}
    (h : matchIncl g s = none) : matchInclDel g s = none := by
  unfold matchInclDel
  rw [h]
  rfl

theorem matchIncl_nonHash {g : List Char} {c : Char} (h1 : isWsp c = false)
    (h2 : ¬(c = '#')) (t : List Char) : matchIncl g (c :: t) = none := by
  unfold matchIncl
  rw [munchWs_nonWsp h1]
  dsimp only
  rw [show matchLit ['#','i','n','c','l','u','d','e'] (c :: t) =
    ite (c = '#') (matchLit ['i','n','c','l','u','d','e'] t) none from rfl]
  rw [if_neg h2]
  rfl

theorem matchIncl_lf_nonHash {g : List Char} {c : Char} (h1 : isWsp c = false)
    (h2 : ¬(c = '#')) (t : List Char) : matchIncl g ('\n' :: c :: t) = none := by
  unfold matchIncl
  rw [munchWs_lf_nonWsp h1]
  dsimp only
  rw [show matchLit ['#','i','n','c','l','u','d','e'] (c :: t) =
    ite (c = '#') (matchLit ['i','n','c','l','u','d','e'] t) none from rfl]
  rw [if_neg h2]
  rfl

theorem matchIncl_lf_nil (g : List Char) : matchIncl g ['\n'] = none := by
  unfold matchIncl
  rw [munchWs_lf_nil]
  rfl

theorem searchFirst_cons_notbol {α : Type} (att : List Char → Option (α × List Char))
    (c : Char) (cs : List Char) :
    searchFirst att false (c :: cs) =
      (searchFirst att (isLineTerm c) cs).map (fun pr => (c :: pr.1, pr.2.1, pr.2.2)) := rfl

theorem searchFirst_nil {α : Type} (att : List Char → Option (α × List Char))
    (b : Bool) (h : att [] = none) : searchFirst att b [] = none := by
  cases b
  · rfl
  · rw [searchFirst, h]
    rfl

theorem searchFirst_true_fail {α : Type} (att : List Char → Option (α × List Char))
    {c : Char} {cs : List Char} (h : att (c :: cs) = none) :
    searchFirst att true (c :: cs) =
      (searchFirst att (isLineTerm c) cs).map (fun pr => (c :: pr.1, pr.2.1, pr.2.2)) := by
  rw [searchFirst, h]
  rfl

theorem searchFirst_true_hit {α : Type} (att : List Char → Option (α × List Char))
    {s : List Char} {a : α} {rest : List Char} (h : att s = some (a, rest)) :
    searchFirst att true s = some ([], a, rest) := by
  cases s with
  | nil =>
    rw [searchFirst, h]
    rfl
  | cons c cs =>
    rw [searchFirst, h]
    rfl

end mkr

namespace mkr

theorem joinLinesNL_cons (l : List Char) (ls : List (List Char)) :
    joinLinesNL (l :: ls) = l ++ '\n' :: joinLinesNL ls := rfl

theorem joinLinesNL_append (a b : List (List Char)) :
    joinLinesNL (a ++ b) = joinLinesNL a ++ joinLinesNL b := by
  induction a with
  | nil => rfl
  | cons l ls ih =>
    rw [List.cons_append, joinLinesNL_cons, joinLinesNL_cons, ih]
    simp [List.append_assoc]

theorem joinLinesNL_length (a : List (List Char)) :
    a.length ≤ (joinLinesNL a).length := by
  induction a with
  | nil => simp [joinLinesNL]
  | cons l ls ih =>
    rw [joinLinesNL_cons]
    simp only [List.length_append, List.length_cons, List.length_cons]
    omega

theorem plainLine_parts {l : List Char} (h : plainLine l = true) :
    ∃ c cs, l = c :: cs ∧ isWsp c = false ∧ ¬(c = '#') ∧
      (c :: cs).all (fun d => !(isLineTerm d)) = true := by
  cases l with
  | nil => exact absurd h (by simp [plainLine])
  | cons c cs =>
    refine ⟨c, cs, rfl, ?_, ?_, ?_⟩
    · have := h
      rw [plainLine, Bool.and_eq_true, Bool.and_eq_true] at this
      simpa using this.1.1
    · have := h
      rw [plainLine, Bool.and_eq_true, Bool.and_eq_true] at this
      simpa using this.1.2
    · have := h
      rw [plainLine, Bool.and_eq_true] at this
      exact this.2

theorem searchFirst_skip_chars {α : Type} (att : List Char → Option (α × List Char))
    (l : List Char) (hl : l.all (fun d => !(isLineTerm d)) = true) (t : List Char) :
    searchFirst att false (l ++ t) =
      (searchFirst att false t).map (fun pr => (l ++ pr.1, pr.2.1, pr.2.2)) := by
  induction l with
  | nil =>
    cases hres : searchFirst att false t with
    | none => simp [hres]
    | some pr =>
      obtain ⟨x, y, z⟩ := pr
      simp [hres]
  | cons c cs ih =>
    rw [List.all_cons, Bool.and_eq_true] at hl
    have hc : isLineTerm c = false := by simpa using hl.1
    rw [List.cons_append, searchFirst_cons_notbol, hc, ih hl.2]
    cases hres : searchFirst att false t with
    | none => simp
    | some pr =>
      obtain ⟨x, y, z⟩ := pr
      simp

theorem searchFirst_plain_skip {α : Type} (att : List Char → Option (α × List Char))
    {l : List Char} (hl : plainLine l = true) (t : List Char)
    (hatt : att (l ++ '\n' :: t) = none) :
    searchFirst att true (l ++ '\n' :: t) =
      (searchFirst att true t).map (fun pr => ((l ++ ['\n']) ++ pr.1, pr.2.1, pr.2.2)) := by
  obtain ⟨c, cs, rfl, hw, hh, hnt⟩ := plainLine_parts hl
  rw [List.all_cons, Bool.and_eq_true] at hnt
  have hc : isLineTerm c = false := by simpa using hnt.1
  rw [List.cons_append, searchFirst_true_fail att (by rw [← List.cons_append]; exact hatt), hc]
  rw [searchFirst_skip_chars att cs hnt.2]
  rw [searchFirst_cons_notbol]
  rw [show isLineTerm '\n' = true from rfl]
  cases hres : searchFirst att true t with
  | none => simp
  | some pr =>
    obtain ⟨x, y, z⟩ := pr
    simp

theorem searchFirst_plains {α : Type} (att : List Char → Option (α × List Char))
    (pls : List (List Char)) (hp : ∀ l ∈ pls, plainLine l = true) (t : List Char)
    (hatt : ∀ (l u : List Char), plainLine l = true → att (l ++ '\n' :: u) = none) :
    searchFirst att true (joinLinesNL pls ++ t) =
      (searchFirst att true t).map (fun pr => (joinLinesNL pls ++ pr.1, pr.2.1, pr.2.2)) := by
  induction pls with
  | nil =>
    cases hres : searchFirst att true t with
    | none => simp [joinLinesNL, hres]
    | some pr =>
      obtain ⟨x, y, z⟩ := pr
      simp [joinLinesNL, hres]
  | cons l ls ih =>
    have hl : plainLine l = true := hp l (List.mem_cons_self _ _)
    rw [joinLinesNL_cons]
    rw [show (l ++ '\n' :: joinLinesNL ls) ++ t = l ++ '\n' :: (joinLinesNL ls ++ t) by simp]
    rw [searchFirst_plain_skip att hl _ (hatt l _ hl)]
    rw [ih (fun x hx => hp x (List.mem_cons_of_mem _ hx))]
    cases hres : searchFirst att true t with
    | none => simp
    | some pr =>
      obtain ⟨x, y, z⟩ := pr
      simp

end mkr

namespace mkr

theorem matchIncl_plain_none (g : List Char) {l : List Char}
    (hl : plainLine l = true) (u : List Char) : matchIncl g (l ++ '\n' :: u) = none := by
  obtain ⟨c, cs, rfl, hw, hh, _⟩ := plainLine_parts hl
  rw [List.cons_append]
  exact matchIncl_nonHash hw hh _

theorem matchInclDel_plain_none (g : List Char) {l : List Char}
    (hl : plainLine l = true) (u : List Char) : matchInclDel g (l ++ '\n' :: u) = none :=
  matchInclDel_none (matchIncl_plain_none g hl u)

theorem replaceFirstFmt_lines (g : List Char) (hg : goodName g = true)
    (pre rest : List (List Char)) (hpre : ∀ l ∈ pre, plainLine l = true) (T : List Char)
    (hT : T.all (fun c => !(c = '$')) = true) :
    replaceFirstFmt (matchIncl g) T (joinLinesNL (pre ++ dirLine g :: rest)) =
      joinLinesNL pre ++ T ++ '\n' :: joinLinesNL rest := by
  rw [joinLinesNL_append, joinLinesNL_cons]
  have hdir : matchIncl g (dirLine g ++ '\n' :: joinLinesNL rest) =
      some (dirLine g, '\n' :: joinLinesNL rest) := by
    have e : dirLine g ++ '\n' :: joinLinesNL rest =
        [] ++ "#include <".data ++ g ++ '>' :: ('\n' :: joinLinesNL rest) := by
      simp [dirLine]
    rw [e]
    exact matchIncl_at g hg [] ('\n' :: joinLinesNL rest)
      (munchWs_nonWsp (by decide) _)
  unfold replaceFirstFmt
  rw [searchFirst_plains (matchIncl g) pre hpre _ (fun l u h => matchIncl_plain_none g h u)]
  rw [searchFirst_true_hit (matchIncl g) hdir]
  dsimp only [Option.map]
  rw [applyFmt_no_dollar _ _ _ T hT]
  simp [List.append_assoc]

theorem joinLines_head_nonws (g : List Char) (rest : List (List Char))
    (h : ∀ l ∈ rest, plainLine l = true ∨ l = dirLine g) :
    munchWs ('\n' :: joinLinesNL rest) = (['\n'], joinLinesNL rest) := by
  cases rest with
  | nil => exact munchWs_lf_nil
  | cons l ls =>
    rcases h l (List.mem_cons_self _ _) with hl | hl
    · obtain ⟨c, cs, rfl, hw, _, _⟩ := plainLine_parts hl
      rw [joinLinesNL_cons, List.cons_append]
      exact munchWs_lf_nonWsp hw _
    · subst hl
      rw [joinLinesNL_cons]
      rw [show dirLine g ++ '\n' :: joinLinesNL ls =
        '#' :: ("include <".data ++ g ++ '>' :: '\n' :: joinLinesNL ls) by simp [dirLine]]
      exact munchWs_lf_nonWsp (by decide) _

theorem matchInclDel_dir (g : List Char) (hg : goodName g = true)
    (rest : List (List Char)) (h : ∀ l ∈ rest, plainLine l = true ∨ l = dirLine g) :
    matchInclDel g (dirLine g ++ '\n' :: joinLinesNL rest) =
      some (dirLine g ++ ['\n'], joinLinesNL rest) := by
  have e : dirLine g ++ '\n' :: joinLinesNL rest =
      [] ++ "#include <".data ++ g ++ '>' :: ('\n' :: joinLinesNL rest) := by
    simp [dirLine]
  rw [e]
  rw [matchInclDel_at g hg [] ('\n' :: joinLinesNL rest)
    (munchWs_nonWsp (by decide) _) ['\n'] (joinLinesNL rest) (joinLines_head_nonws g rest h)]
  simp

theorem matchInclDel_blank_dir (g : List Char) (hg : goodName g = true)
    (rest : List (List Char)) (h : ∀ l ∈ rest, plainLine l = true ∨ l = dirLine g) :
    matchInclDel g ('\n' :: (dirLine g ++ '\n' :: joinLinesNL rest)) =
      some ('\n' :: (dirLine g ++ ['\n']), joinLinesNL rest) := by
  have e : '\n' :: (dirLine g ++ '\n' :: joinLinesNL rest) =
      ['\n'] ++ "#include <".data ++ g ++ '>' :: ('\n' :: joinLinesNL rest) := by
    simp [dirLine]
  rw [e]
  have hmw : munchWs (['\n'] ++ "#include <".data ++ g ++ '>' :: ('\n' :: joinLinesNL rest)) =
      (['\n'], "#include <".data ++ g ++ '>' :: ('\n' :: joinLinesNL rest)) :=
    munchWs_lf_nonWsp (by decide) _
  rw [matchInclDel_at g hg ['\n'] ('\n' :: joinLinesNL rest) hmw
    ['\n'] (joinLinesNL rest) (joinLines_head_nonws g rest h)]
  simp [dirLine, List.append_assoc]

end mkr

namespace mkr

theorem first_dir_split (g : List Char) (lls : List (List Char))
    (h : ∀ l ∈ lls, plainLine l = true ∨ l = dirLine g) :
    (∀ l ∈ lls, plainLine l = true) ∨
      ∃ p r, lls = p ++ dirLine g :: r ∧ (∀ l ∈ p, plainLine l = true) := by
  induction lls with
  | nil => exact Or.inl (by simp)
  | cons l ls ih =>
    rcases h l (List.mem_cons_self _ _) with hl | hl
    · rcases ih (fun x hx => h x (List.mem_cons_of_mem _ hx)) with hall | ⟨p, r, hpr, hp⟩
      · refine Or.inl ?_
        intro x hx
        rcases List.mem_cons.mp hx with rfl | hx
        · exact hl
        · exact hall x hx
      · refine Or.inr ⟨l :: p, r, by rw [hpr, List.cons_append], ?_⟩
        intro x hx
        rcases List.mem_cons.mp hx with rfl | hx
        · exact hl
        · exact hp x hx
    · exact Or.inr ⟨[], ls, by rw [hl, List.nil_append], by simp⟩

theorem searchFirst_del_none (g : List Char) (lls : List (List Char))
    (h : ∀ l ∈ lls, plainLine l = true) :
    searchFirst (matchInclDel g) true (joinLinesNL lls) = none := by
  induction lls with
  | nil => exact searchFirst_nil _ true (matchInclDel_none (matchIncl_nil g))
  | cons l ls ih =>
    rw [joinLinesNL_cons]
    rw [searchFirst_plain_skip (matchInclDel g) (h l (List.mem_cons_self _ _)) _
      (matchInclDel_plain_none g (h l (List.mem_cons_self _ _)) _)]
    rw [ih (fun x hx => h x (List.mem_cons_of_mem _ hx))]
    rfl

theorem searchFirst_del_hit (g : List Char) (hg : goodName g = true)
    (p r : List (List Char)) (hp : ∀ l ∈ p, plainLine l = true)
    (hr : ∀ l ∈ r, plainLine l = true ∨ l = dirLine g) :
    searchFirst (matchInclDel g) true (joinLinesNL (p ++ dirLine g :: r)) =
      some (joinLinesNL p, dirLine g ++ ['\n'], joinLinesNL r) := by
  rw [joinLinesNL_append, joinLinesNL_cons]
  rw [searchFirst_plains (matchInclDel g) p hp _
    (fun l u hpl => matchInclDel_plain_none g hpl u)]
  rw [searchFirst_true_hit (matchInclDel g) (matchInclDel_dir g hg r hr)]
  simp

theorem bolAfter_lf (b : Bool) (p m : List Char) :
    bolAfter b p (m ++ ['\n']) = true := by
  unfold bolAfter
  rw [show p ++ (m ++ ['\n']) = (p ++ m) ++ ['\n'] by simp [List.append_assoc]]
  rw [List.getLast?_concat]
  rfl

theorem filter_plain_keep (g : List Char) (p : List (List Char))
    (hp : ∀ l ∈ p, plainLine l = true) :
    p.filter (fun l => !(decide (l = dirLine g))) = p := by
  rw [List.filter_eq_self]
  intro a ha
  have : ¬(a = dirLine g) := by
    intro e
    have := hp a ha
    rw [e, plainLine_dirLine] at this
    exact absurd this (by simp)
  simp [this]

theorem replaceAllGo_del (g : List Char) (hg : goodName g = true) :
    ∀ (n : Nat) (lls : List (List Char)), lls.length ≤ n →
    ∀ (fuel : Nat),
      (lls.filter (fun l => decide (l = dirLine g))).length < fuel →
      (∀ l ∈ lls, plainLine l = true ∨ l = dirLine g) →
      replaceAllGo (matchInclDel g) fuel true (joinLinesNL lls) =
        joinLinesNL (lls.filter (fun l => !(decide (l = dirLine g)))) := by
  intro n
  induction n with
  | zero =>
    intro lls hlen fuel hfuel h
    have : lls = [] := List.length_eq_zero.mp (Nat.le_zero.mp hlen)
    subst this
    cases fuel with
    | zero => exact absurd hfuel (by simp)
    | succ f =>
      rw [replaceAllGo, searchFirst_del_none g [] (by simp)]
      rfl
  | succ n ih =>
    intro lls hlen fuel hfuel h
    rcases first_dir_split g lls h with hall | ⟨p, r, rfl, hp⟩
    · cases fuel with
      | zero => exact absurd hfuel (by simp)
      | succ f =>
        rw [replaceAllGo, searchFirst_del_none g lls hall, filter_plain_keep g lls hall]
    · have hr : ∀ l ∈ r, plainLine l = true ∨ l = dirLine g := by
        intro x hx
        exact h x (by simp [hx])
      cases fuel with
      | zero => exact absurd hfuel (by simp)
      | succ f =>
        rw [replaceAllGo, searchFirst_del_hit g hg p r hp hr]
        dsimp only
        rw [bolAfter_lf]
        have hrlen : r.length ≤ n := by
          have := hlen
          rw [List.length_append, List.length_cons] at this
          omega
        have hrfuel : (r.filter (fun l => decide (l = dirLine g))).length < f := by
          rw [List.filter_append, List.filter_cons] at hfuel
          simp only [decide_True, if_pos] at hfuel
          rw [List.filter_eq_nil_iff.mpr ?hnil] at hfuel
          case hnil =>
            intro a ha
            have hpa := hp a ha
            simp only [decide_eq_true_eq]
            intro e
            rw [e, plainLine_dirLine] at hpa
            exact absurd hpa (by simp)
          simp only [List.nil_append, List.length_cons] at hfuel
          omega
        rw [ih r hrlen f hrfuel hr]
        rw [List.filter_append, List.filter_cons]
        simp only [decide_True]
        rw [filter_plain_keep g p hp]
        rw [joinLinesNL_append]
        simp

end mkr

namespace mkr

theorem matchInclDel_lf_plain_none (g : List Char) {l : List Char}
    (hl : plainLine l = true) (u : List Char) :
    matchInclDel g ('\n' :: (l ++ '\n' :: u)) = none := by
  obtain ⟨c, cs, rfl, hw, hh, _⟩ := plainLine_parts hl
  rw [List.cons_append]
  exact matchInclDel_none (matchIncl_lf_nonHash hw hh _)

theorem searchFirst_del_blank_plain (g : List Char) {l : List Char}
    (hl : plainLine l = true) (ls : List (List Char)) :
    searchFirst (matchInclDel g) true ('\n' :: joinLinesNL (l :: ls)) =
      (searchFirst (matchInclDel g) true (joinLinesNL (l :: ls))).map
        (fun pr => ('\n' :: pr.1, pr.2.1, pr.2.2)) := by
  rw [joinLinesNL_cons]
  rw [searchFirst_true_fail _ (matchInclDel_lf_plain_none g hl _)]
  rw [show isLineTerm '\n' = true from rfl]

theorem count_dirs_split (g : List Char) (p r : List (List Char))
    (hp : ∀ l ∈ p, plainLine l = true) :
    ((p ++ dirLine g :: r).filter (fun l => decide (l = dirLine g))).length =
      (r.filter (fun l => decide (l = dirLine g))).length + 1 := by
  rw [List.filter_append, List.filter_cons]
  rw [List.filter_eq_nil_iff.mpr ?hnil]
  case hnil =>
    intro a ha
    have hpa := hp a ha
    simp only [decide_eq_true_eq]
    intro e
    rw [e, plainLine_dirLine] at hpa
    exact absurd hpa (by simp)
  simp

theorem filter_drop_split (g : List Char) (p r : List (List Char))
    (hp : ∀ l ∈ p, plainLine l = true) :
    (p ++ dirLine g :: r).filter (fun l => !(decide (l = dirLine g))) =
      p ++ r.filter (fun l => !(decide (l = dirLine g))) := by
  rw [List.filter_append, filter_plain_keep g p hp, List.filter_cons]
  simp

theorem replaceAllGo_del_blank (g : List Char) (hg : goodName g = true)
    (pp : List (List Char)) (hpp : ∀ l ∈ pp, plainLine l = true)
    (rest : List (List Char)) (hrest : ∀ l ∈ rest, plainLine l = true ∨ l = dirLine g)
    (fuel : Nat) (hfuel : (rest.filter (fun l => decide (l = dirLine g))).length < fuel) :
    replaceAllGo (matchInclDel g) fuel true
        (joinLinesNL pp ++ '\n' :: joinLinesNL rest) =
      joinLinesNL pp ++ blankSep g rest ++
        joinLinesNL (rest.filter (fun l => !(decide (l = dirLine g)))) := by
  cases fuel with
  | zero => exact absurd hfuel (Nat.not_lt_zero _)
  | succ f =>
    rw [replaceAllGo]
    cases rest with
    | nil =>
      have hin : searchFirst (matchInclDel g) true
          ('\n' :: joinLinesNL ([] : List (List Char))) = none := by
        rw [show joinLinesNL ([] : List (List Char)) = ([] : List Char) from rfl]
        rw [searchFirst_true_fail _ (matchInclDel_none (matchIncl_lf_nil g))]
        rw [show isLineTerm '\n' = true from rfl]
        rw [searchFirst_nil _ true (matchInclDel_none (matchIncl_nil g))]
        rfl
      rw [searchFirst_plains _ pp hpp _ (fun l u h => matchInclDel_plain_none g h u), hin]
      simp [joinLinesNL, blankSep]
    | cons l rest1 =>
      have hr1 : ∀ x ∈ rest1, plainLine x = true ∨ x = dirLine g :=
        fun x hx => hrest x (List.mem_cons_of_mem _ hx)
      rcases hrest l (List.mem_cons_self _ _) with hl | hl
      · have hldir : ¬(l = dirLine g) := by
          intro e
          have hc := hl
          rw [e, plainLine_dirLine] at hc
          exact absurd hc (by simp)
        rcases first_dir_split g (l :: rest1) hrest with hall | ⟨p2, r2, heq, hp2⟩
        · have hin : searchFirst (matchInclDel g) true
              ('\n' :: joinLinesNL (l :: rest1)) = none := by
            rw [searchFirst_del_blank_plain g hl rest1]
            rw [searchFirst_del_none g _ hall]
            rfl
          rw [searchFirst_plains _ pp hpp _ (fun x u h => matchInclDel_plain_none g h u), hin]
          dsimp only [Option.map]
          rw [filter_plain_keep g _ hall]
          simp only [blankSep]
          rw [if_neg hldir]
          simp [List.append_assoc]
        · cases p2 with
          | nil =>
            exfalso
            rw [List.nil_append] at heq
            exact hldir (List.head_eq_of_cons_eq heq)
          | cons p2h p2t =>
            rw [List.cons_append] at heq
            injection heq with e1 e2
            subst e2
            subst e1
            have hr2 : ∀ x ∈ r2, plainLine x = true ∨ x = dirLine g := by
              intro x hx
              exact hr1 x (by simp [hx])
            have hin : searchFirst (matchInclDel g) true
                ('\n' :: joinLinesNL (l :: (p2t ++ dirLine g :: r2))) =
                some ('\n' :: joinLinesNL (l :: p2t), dirLine g ++ ['\n'],
                  joinLinesNL r2) := by
              rw [searchFirst_del_blank_plain g hl]
              rw [show (l :: (p2t ++ dirLine g :: r2)) = (l :: p2t) ++ dirLine g :: r2
                from rfl]
              rw [searchFirst_del_hit g hg (l :: p2t) r2 hp2 hr2]
              rfl
            rw [searchFirst_plains _ pp hpp _ (fun x u h => matchInclDel_plain_none g h u),
              hin]
            dsimp only [Option.map]
            rw [bolAfter_lf]
            have hf2 : (r2.filter (fun x => decide (x = dirLine g))).length < f := by
              have hc := hfuel
              rw [show (l :: (p2t ++ dirLine g :: r2)) = (l :: p2t) ++ dirLine g :: r2
                from rfl] at hc
              rw [count_dirs_split g (l :: p2t) r2 hp2] at hc
              omega
            rw [replaceAllGo_del g hg r2.length r2 le_rfl f hf2 hr2]
            simp only [blankSep]
            rw [if_neg hldir]
            rw [show (l :: (p2t ++ dirLine g :: r2)) = (l :: p2t) ++ dirLine g :: r2
              from rfl, filter_drop_split g (l :: p2t) r2 hp2]
            rw [joinLinesNL_append]
            simp [List.append_assoc]
      · subst hl
        have hin : searchFirst (matchInclDel g) true
            ('\n' :: joinLinesNL (dirLine g :: rest1)) =
            some ([], '\n' :: (dirLine g ++ ['\n']), joinLinesNL rest1) := by
          rw [joinLinesNL_cons]
          exact searchFirst_true_hit _ (matchInclDel_blank_dir g hg rest1 hr1)
        rw [searchFirst_plains _ pp hpp _ (fun x u h => matchInclDel_plain_none g h u), hin]
        dsimp only [Option.map]
        rw [show ('\n' :: (dirLine g ++ ['\n'])) = ('\n' :: dirLine g) ++ ['\n']
          from rfl]
        rw [bolAfter_lf]
        have hf2 : (rest1.filter (fun x => decide (x = dirLine g))).length < f := by
          have hc := hfuel
          rw [List.filter_cons, if_pos (by simp)] at hc
          rw [List.length_cons] at hc
          omega
        rw [replaceAllGo_del g hg rest1.length rest1 le_rfl f hf2 hr1]
        simp [blankSep, List.filter_cons]

end mkr

namespace mkr

/-- Every literal-character name is in particular free of the dot
metacharacter and of line terminators. -/
theorem goodName_of_literalName (g : List Char) (h : literalName g = true) :
    goodName g = true := by
  rw [literalName, List.all_eq_true] at h
  rw [goodName, List.all_eq_true]
  intro c hc
  have hcl := h c hc
  simp only [Bool.or_eq_true, Bool.and_eq_true, decide_eq_true_eq] at hcl
  have hne : ¬(c = '.') ∧ ¬(c = '\n') ∧ ¬(c = '\r') := by
    rcases hcl with ((⟨h1, h2⟩ | ⟨h1, h2⟩) | ⟨h1, h2⟩) | h1
    · exact ⟨fun e => absurd h1 (by rw [e]; decide),
        fun e => absurd h1 (by rw [e]; decide),
        fun e => absurd h1 (by rw [e]; decide)⟩
    · exact ⟨fun e => absurd h1 (by rw [e]; decide),
        fun e => absurd h1 (by rw [e]; decide),
        fun e => absurd h1 (by rw [e]; decide)⟩
    · exact ⟨fun e => absurd h1 (by rw [e]; decide),
        fun e => absurd h1 (by rw [e]; decide),
        fun e => absurd h1 (by rw [e]; decide)⟩
    · exact ⟨by rw [h1]; decide, by rw [h1]; decide, by rw [h1]; decide⟩
  simp [isLineTerm, hne.1, hne.2.1, hne.2.2]

/-- C5: during substitution of a fragment that references a dependency g
several times and is not suppressed by include-once, the engine replaces
the first line-anchored `#include <g>` directive with g's merged text,
and the deleting pass removes every other such directive line together
with its trailing whitespace.  Stated for contents in line form whose
ordinary lines start with a non-whitespace, non-`#` character, with the
qualifications the regex mechanics force: the merged text acts as a
std::regex_replace format string (hence the `$`-free hypothesis; the
counterexample shows `$&` breaking the verbatim insertion), the replacing
regex does not consume the directive's own line terminator, so an extra
blank line survives at the substitution point, except that the deleting
regex swallows it when the immediately following line is again a
directive for g.  The name must consist of regex-literal characters
(ASCII letters, digits, underscore): for a scanner-producible name
containing `^`, `\` or `[`, the real interpolated per-name regex matches
nothing or its construction throws std::regex_error, so such names are
outside this theorem (and outside the matcher model's faithful domain). -/
theorem substitution_first_replaced_rest_deleted
    (single : List (List Char × Bool)) (name g : List Char) (st : SubstState)
    (tlines pre rest : List (List Char))
    (hg : literalName g = true)
    (hskip : (lookupD g false single && lookupD g false st.visited) = false)
    (hmod : lookupD g [] st.modified = joinLinesNL tlines)
    (htl : ∀ l ∈ tlines, plainLine l = true)
    (hdollar : (joinLinesNL tlines).all (fun c => !(c = '$')) = true)
    (hcontent : st.content = joinLinesNL (pre ++ dirLine g :: rest))
    (hpre : ∀ l ∈ pre, plainLine l = true)
    (hrest : ∀ l ∈ rest, plainLine l = true ∨ l = dirLine g)
    (hmore : dirLine g ∈ rest) :
    (delStep (replStep single name st g) g).content =
      joinLinesNL (pre ++ tlines) ++ blankSep g rest ++
        joinLinesNL (rest.filter (fun l => !(decide (l = dirLine g)))) := by
  have hgn : goodName g = true := goodName_of_literalName g hg
  unfold replStep
  rw [hskip]
  rw [if_neg Bool.false_ne_true]
  unfold delStep
  dsimp only
  rw [hmod, hcontent]
  rw [replaceFirstFmt_lines g hgn pre rest hpre (joinLinesNL tlines) hdollar]
  unfold replaceAllEmpty
  rw [show joinLinesNL pre ++ joinLinesNL tlines ++ '\n' :: joinLinesNL rest =
    joinLinesNL (pre ++ tlines) ++ '\n' :: joinLinesNL rest by
      rw [joinLinesNL_append, List.append_assoc]]
  have hppt : ∀ l ∈ pre ++ tlines, plainLine l = true := by
    intro l hl
    rcases List.mem_append.mp hl with h | h
    · exact hpre l h
    · exact htl l h
  refine replaceAllGo_del_blank g hgn (pre ++ tlines) hppt rest hrest _ ?_
  have h1 : (rest.filter (fun l => decide (l = dirLine g))).length ≤ rest.length :=
    List.length_filter_le _ _
  have h2 : rest.length ≤ (joinLinesNL rest).length := joinLinesNL_length rest
  rw [List.length_append, List.length_cons]
  omega

end mkr

namespace mkr

/-- Witness for the C5 amended theorem at a concrete substitution state
with one plain line, two directives for F and a plain tail line. -/
theorem substitution_first_replaced_rest_deleted_witness :
    (delStep (replStep [] "r".data
        { srcs := []
          visited := []
          modified := [("F".data, joinLinesNL [['T']])]
          content := joinLinesNL ([['a']] ++ dirLine "F".data :: [dirLine "F".data, ['b']])
          events := [] } "F".data) "F".data).content =
      joinLinesNL ([['a']] ++ [['T']]) ++ blankSep "F".data [dirLine "F".data, ['b']] ++
        joinLinesNL (([dirLine "F".data, ['b']]).filter
          (fun l => !(decide (l = dirLine "F".data)))) :=
  substitution_first_replaced_rest_deleted [] "r".data "F".data
    { srcs := []
      visited := []
      modified := [("F".data, joinLinesNL [['T']])]
      content := joinLinesNL ([['a']] ++ dirLine "F".data :: [dirLine "F".data, ['b']])
      events := [] }
    [['T']] [['a']] [dirLine "F".data, ['b']]
    (by decide) (by decide) (by decide) (by decide) (by decide) rfl
    (by decide) (by decide) (by decide)

end mkr
